import Mathlib

/-!
# Minesweeper board engine (`src/main.c`)

A shallow embedding of the board engine of `src/main.c` and of the keyboard loop of
`main`, followed by theorems about them.

Modelling conventions.

* C `int` values (`cols`, `rows`, `mines_remaining`, coordinates) and the `char`
  field `number` are mathematical integers (`Int`).  Signed overflow is undefined
  behaviour in C, so the model agrees with the program on every run on which the
  program's behaviour is defined.
* The heap block `board->tiles` is a map from element offsets to tiles; the
  program only ever dereferences offsets `idy * cols + idx` of in-bounds
  coordinates, which lie in `[0, cols * rows)`.
* The global `default_tile` is part of the program state, because `board_get`
  hands out a pointer to it.  A `TilePtr` is the value of a `Tile *`.
* `rand()` and `getch()` are modelled by the lists of the values they return, in call
  order.
* `reveal_tile` is recursive; the model takes a recursion budget (fuel) and is
  proved to return a result, independent of the budget, once the budget exceeds
  `cols * rows + 1`.
-/

namespace Minesweeper

/-! ## Data model (`main.c` lines 11-25) -/

/-- The C struct `Tile`. -/
structure Tile where
  number : Int
  mine : Bool
  revealed : Bool
  flagged : Bool
deriving DecidableEq, Repr

/-- The C struct `Board`; `tiles` maps an element offset to the tile stored there. -/
structure Board where
  tiles : Nat → Tile
  cols : Int
  rows : Int
  mines_remaining : Int

/-- The initialiser of the global `default_tile` (line 25). -/
def default_tile_init : Tile :=
  { number := 0, mine := false, revealed := true, flagged := false }

/-- The mutable program state the engine works on: the board object and the
global `default_tile`. -/
structure State where
  board : Board
  default_tile : Tile

/-- A value of type `Tile *` as produced by `board_get`: either `&default_tile`
or `board->tiles + off`. -/
inductive TilePtr where
  | default_tile : TilePtr
  | tiles (off : Nat) : TilePtr
deriving DecidableEq, Repr

/-- Reading through a tile pointer. -/
def State.load (s : State) : TilePtr → Tile
  | TilePtr.default_tile => s.default_tile
  | TilePtr.tiles off => s.board.tiles off

/-- Replacing one element of the tile block. -/
def Board.setTile (b : Board) (off : Nat) (t : Tile) : Board :=
  { b with tiles := fun j => if j = off then t else b.tiles j }

/-- Writing through a tile pointer. -/
def State.store (s : State) (p : TilePtr) (t : Tile) : State :=
  match p with
  | TilePtr.default_tile => { s with default_tile := t }
  | TilePtr.tiles off => { s with board := s.board.setTile off t }

/-- The function `is_between` (lines 27-29). -/
def is_between (a lower upper : Int) : Bool :=
  decide (a ≥ lower) && decide (a < upper)

/-- The function `board_get` (lines 31-39). -/
def board_get (board : Board) (idx idy : Int) : TilePtr :=
  if !is_between idx 0 board.cols then TilePtr.default_tile
  else if !is_between idy 0 board.rows then TilePtr.default_tile
  else TilePtr.tiles (idy * board.cols + idx).toNat

/-! ## Board construction (`create_board`, lines 46-77) -/

/-- The block returned by `calloc`: every tile is all-zero. -/
def calloc_tiles : Nat → Tile :=
  fun _ => { number := 0, mine := false, revealed := false, flagged := false }

/-- The mine-placement loop (lines 55-62).  `rs` holds the values `rand()` is going
to return; `i` is the loop counter.  On a collision the C code does `i--` and
`continue`, and the loop increment then restores `i`.  The result is `none` when
`rs` is used up before the loop has ended. -/
def place_mines (size mines : Int) : List Nat → Int → (Nat → Tile) → Option (Nat → Tile)
  | [], i, tiles => if i < mines then none else some tiles
  | r :: rest, i, tiles =>
    if i < mines then
      let idx : Int := (r : Int) % size
      if (tiles idx.toNat).mine then
        place_mines size mines rest ((i - 1) + 1) tiles
      else
        place_mines size mines rest (i + 1)
          (fun j => if j = idx.toNat then { tiles idx.toNat with mine := true } else tiles j)
    else some tiles

/-- The offsets `(dx, dy)` in the order in which the loops
`for (dy = -1; dy < 2; dy++) for (dx = -1; dx < 2; dx++)` visit them. -/
def offsets : List (Int × Int) :=
  [(-1, -1), (0, -1), (1, -1), (-1, 0), (0, 0), (1, 0), (-1, 1), (0, 1), (1, 1)]

/-- The value a C `bool` contributes to an integer expression. -/
def bool_int (b : Bool) : Int := if b then 1 else 0

/-- The body of the numbering loops for one tile (lines 66-72): add the `mine`
field of the nine tiles around `(x, y)`, looked up with `board_get`, to
`tile->number`, then subtract the tile's own `mine` field. -/
def number_tile (s : State) (x y : Int) : State :=
  let tile := board_get s.board x y
  let s1 := offsets.foldl
    (fun acc d =>
      acc.store tile
        { acc.load tile with
          number := (acc.load tile).number
            + bool_int (acc.load (board_get acc.board (x + d.1) (y + d.2))).mine })
    s
  s1.store tile
    { s1.load tile with number := (s1.load tile).number - bool_int (s1.load tile).mine }

/-- The numbering loops (lines 64-74): rows from `0` to `rows - 1`, and within a
row columns from `0` to `cols - 1`. -/
def number_pass (s : State) : State :=
  (List.range s.board.rows.toNat).foldl
    (fun (acc : State) (y : Nat) =>
      (List.range s.board.cols.toNat).foldl
        (fun (acc2 : State) (x : Nat) => number_tile acc2 (x : Int) (y : Int)) acc)
    s

/-- The function `create_board` (lines 46-77), run with the global `default_tile`
holding `dt` and with `rand()` returning the values of `rs` in turn.  The result is
`none` when the placement loop has not ended by the time `rs` is used up. -/
def create_board (dt : Tile) (cols rows mines : Int) (rs : List Nat) : Option State :=
  let size := cols * rows
  match place_mines size mines rs 0 calloc_tiles with
  | none => none
  | some tiles =>
    some (number_pass
      { board := { tiles := tiles, cols := cols, rows := rows, mines_remaining := mines },
        default_tile := dt })

/-! ## Revealing (`reveal_tile`, lines 95-120) -/

/-- The neighbour loop of `reveal_tile` (lines 112-116): `rec` is the recursive
call, `ds` the offsets still to visit, and the accumulator holds the state and the
local `successful`.  `&=` does not short-circuit, so every call is made. -/
def reveal_loop (rec : State → Int → Int → Option (State × Bool)) (x y : Int) :
    List (Int × Int) → State × Bool → Option (State × Bool)
  | [], acc => some acc
  | d :: ds, acc =>
    match rec acc.1 (x + d.1) (y + d.2) with
    | none => none
    | some r => reveal_loop rec x y ds (r.1, acc.2 && r.2)

/-- The function `reveal_tile` with a bound on the recursion depth; `none` means the
bound was reached. -/
def reveal_tile_fuel : Nat → State → Int → Int → Option (State × Bool)
  | 0, _, _, _ => none
  | fuel + 1, s, x, y =>
    let tile := board_get s.board x y
    let s1 : State :=
      if (s.load tile).flagged then
        let sf := s.store tile { s.load tile with flagged := false }
        { sf with board := { sf.board with mines_remaining := sf.board.mines_remaining + 1 } }
      else s
    if (s1.load tile).revealed then some (s1, true)
    else
      let s2 := s1.store tile { s1.load tile with revealed := true }
      if (s2.load tile).mine then some (s2, false)
      else if (s2.load tile).number = 0 then
        reveal_loop (reveal_tile_fuel fuel) x y offsets (s2, true)
      else some (s2, true)

/-- A recursion depth that `reveal_tile` never reaches (see `reveal_tile_fuel_eq`). -/
def reveal_depth (s : State) : Nat := (s.board.cols * s.board.rows).toNat + 2

/-- The function `reveal_tile`: the new state and the returned `bool`. -/
def reveal_tile (s : State) (x y : Int) : State × Bool :=
  (reveal_tile_fuel (reveal_depth s) s x y).getD (s, true)

/-! ## The flag action of the keyboard loop (`main`, lines 258-266) -/

/-- The `case 'o'` block of `main` with the cursor at `(curs_x, curs_y)`. -/
def toggle_flag (s : State) (curs_x curs_y : Int) : State :=
  let tile := board_get s.board curs_x curs_y
  if !(s.load tile).revealed then
    let s1 := s.store tile { s.load tile with flagged := xor (s.load tile).flagged true }
    { s1 with board := { s1.board with mines_remaining := s1.board.mines_remaining - 1 } }
  else s

/-! ## The keyboard loop (`main`, lines 215-275) -/

/-- The values of the four curses key codes the `switch` of `main` names.  They come
from `curses.h`, which is not part of the repository, so they are parameters. -/
structure Curses where
  KEY_UP : Int
  KEY_DOWN : Int
  KEY_LEFT : Int
  KEY_RIGHT : Int

/-- The branch of the `switch` (lines 225-274) a key selects. -/
inductive Action where
  | quit
  | up
  | down
  | left
  | right
  | flag
  | reveal
  | ignore
deriving DecidableEq, Repr

/-- The case labels of the `switch`, tried in the order of the source: `'q'` (113) and
27; `KEY_UP`, `'k'` (107), `'w'` (119); `KEY_DOWN`, `'j'` (106), `'s'` (115);
`KEY_LEFT`, `'h'` (104), `'a'` (97); `KEY_RIGHT`, `'l'` (108), `'d'` (100); `' '` (32),
`'f'` (102), `'o'` (111); 10, `'e'` (101), `'i'` (105).  Any other value selects no
branch. -/
def decode (k : Curses) (ch : Int) : Action :=
  if ch = 113 ∨ ch = 27 then Action.quit
  else if ch = k.KEY_UP ∨ ch = 107 ∨ ch = 119 then Action.up
  else if ch = k.KEY_DOWN ∨ ch = 106 ∨ ch = 115 then Action.down
  else if ch = k.KEY_LEFT ∨ ch = 104 ∨ ch = 97 then Action.left
  else if ch = k.KEY_RIGHT ∨ ch = 108 ∨ ch = 100 then Action.right
  else if ch = 32 ∨ ch = 102 ∨ ch = 111 then Action.flag
  else if ch = 10 ∨ ch = 101 ∨ ch = 105 then Action.reveal
  else Action.ignore

/-- What the keyboard loop works on: the engine state and the locals `curs_x` and
`curs_y`. -/
structure Session where
  state : State
  curs_x : Int
  curs_y : Int

/-- The body of the selected branch.  `none` is the `goto end` of the quit branch.
The value `reveal_tile` returns is tested at line 270, but the guarded block is
empty. -/
def act (g : Session) : Action → Option Session
  | Action.quit => none
  | Action.up => some (if g.curs_y > 0 then { g with curs_y := g.curs_y - 1 } else g)
  | Action.down =>
    some (if g.curs_y < g.state.board.rows - 1 then { g with curs_y := g.curs_y + 1 } else g)
  | Action.left => some (if g.curs_x > 0 then { g with curs_x := g.curs_x - 1 } else g)
  | Action.right =>
    some (if g.curs_x < g.state.board.cols - 1 then { g with curs_x := g.curs_x + 1 } else g)
  | Action.flag => some { g with state := toggle_flag g.state g.curs_x g.curs_y }
  | Action.reveal => some { g with state := (reveal_tile g.state g.curs_x g.curs_y).1 }
  | Action.ignore => some g

/-- The loop `while (true)` of `main` fed the values `getch()` returns, in order: the
session when the keys are used up, or when the quit branch leaves the loop. -/
def main_loop (k : Curses) : Session → List Int → Session
  | g, [] => g
  | g, ch :: rest =>
    match act g (decode k ch) with
    | none => g
    | some g1 => main_loop k g1 rest

/-- The session `main` starts the loop with (lines 215-216). -/
def initial_session (s : State) : Session :=
  { state := s, curs_x := 0, curs_y := 0 }

/-! ## Notions used to state the properties -/

/-- The coordinate `(x, y)` addresses a tile of the grid. -/
def in_bounds (b : Board) (x y : Int) : Prop :=
  0 ≤ x ∧ x < b.cols ∧ 0 ≤ y ∧ y < b.rows

instance (b : Board) (x y : Int) : Decidable (in_bounds b x y) :=
  inferInstanceAs (Decidable (0 ≤ x ∧ x < b.cols ∧ 0 ≤ y ∧ y < b.rows))

/-- The tile of the grid at the in-bounds coordinate `(x, y)` (row-major). -/
def Board.at (b : Board) (x y : Int) : Tile := b.tiles (y * b.cols + x).toNat

/-- The eight offsets `(dx, dy)` with `dx, dy` in `{-1, 0, 1}`, not both `0`. -/
def moore_offsets : List (Int × Int) :=
  [(-1, -1), (0, -1), (1, -1), (-1, 0), (1, 0), (-1, 1), (0, 1), (1, 1)]

/-- Written from the specification, not from the code: the number of mine tiles among
the in-bounds Moore neighbours of `(x, y)`. -/
def adjacent_mines (b : Board) (x y : Int) : Nat :=
  moore_offsets.countP
    (fun d => decide (in_bounds b (x + d.1) (y + d.2)) && (b.at (x + d.1) (y + d.2)).mine)

/-- The number of mine tiles in the grid. -/
def mine_count (b : Board) : Nat :=
  (List.range (b.cols * b.rows).toNat).countP (fun i => (b.tiles i).mine)

/-- The coordinate `(x1, y1)` is `(x, y)` itself or one of its eight Moore neighbours. -/
def within_one (x y x1 y1 : Int) : Prop :=
  -1 ≤ x1 - x ∧ x1 - x ≤ 1 ∧ -1 ≤ y1 - y ∧ y1 - y ≤ 1

instance (x y x1 y1 : Int) : Decidable (within_one x y x1 y1) :=
  inferInstanceAs (Decidable (-1 ≤ x1 - x ∧ x1 - x ≤ 1 ∧ -1 ≤ y1 - y ∧ y1 - y ≤ 1))

/-- The tile at `(x, y)` is in the grid and has number 0. -/
def zero_at (b : Board) (x y : Int) : Prop :=
  in_bounds b x y ∧ (b.at x y).number = 0

/-- The zero-number tiles reachable from the zero-number tile `(x, y)` through
8-connected steps that stay on zero-number tiles. -/
inductive ZeroReach (b : Board) (x y : Int) : Int → Int → Prop
  | start : zero_at b x y → ZeroReach b x y x y
  | step (x1 y1 x2 y2 : Int) : ZeroReach b x y x1 y1 → within_one x1 y1 x2 y2 →
      zero_at b x2 y2 → ZeroReach b x y x2 y2

/-- The states the program can be in: the board `create_board` returns, and from
there any number of `reveal_tile` calls and flag actions at in-bounds positions. -/
inductive Reachable : State → Prop
  | fresh (cols rows mines : Int) (rs : List Nat) (s : State) :
      create_board default_tile_init cols rows mines rs = some s → Reachable s
  | reveal (s : State) (x y : Int) :
      Reachable s → in_bounds s.board x y → Reachable (reveal_tile s x y).1
  | toggle (s : State) (x y : Int) :
      Reachable s → in_bounds s.board x y → Reachable (toggle_flag s x y)

/-- The number of tiles of the grid that are not revealed. -/
def hidden_tiles (s : State) : Nat :=
  (List.range (s.board.cols * s.board.rows).toNat).countP
    (fun i => !(s.board.tiles i).revealed)

/-- The key codes of the ncurses library, for concrete runs of the keyboard loop. -/
def ncurses_keys : Curses :=
  { KEY_UP := 259, KEY_DOWN := 258, KEY_LEFT := 260, KEY_RIGHT := 261 }

/-! ## States used as concrete instances -/

/-- A board of two columns and one row, freshly numbered: a hidden mine at `(0, 0)`
and a hidden safe tile with number 1 at `(1, 0)`. -/
def two_tile_state : State :=
  { board :=
      { tiles := fun i =>
          if i = 0 then { number := 0, mine := true, revealed := false, flagged := false }
          else { number := 1, mine := false, revealed := false, flagged := false },
        cols := 2, rows := 1, mines_remaining := 1 },
    default_tile := default_tile_init }

/-- A board of three columns and one row, freshly numbered, with its one mine at
`(2, 0)`: the numbers are 0, 1, 0 and every tile is hidden. -/
def three_tile_state : State :=
  { board :=
      { tiles := fun i =>
          if i = 0 then { number := 0, mine := false, revealed := false, flagged := false }
          else if i = 1 then { number := 1, mine := false, revealed := false, flagged := false }
          else { number := 0, mine := true, revealed := false, flagged := false },
        cols := 3, rows := 1, mines_remaining := 1 },
    default_tile := default_tile_init }

/-! ## Auxiliary definitions used in the proofs -/

/-- Lines 97-100 of `reveal_tile` on the tile `p` points to: retract a flag. -/
def unflag (s : State) (p : TilePtr) : State :=
  if (s.load p).flagged then
    let sf := s.store p { s.load p with flagged := false }
    { sf with board := { sf.board with mines_remaining := sf.board.mines_remaining + 1 } }
  else s

/-- Line 105 of `reveal_tile` on the tile `p` points to: `tile->revealed = true`. -/
def mark (s : State) (p : TilePtr) : State :=
  s.store p { s.load p with revealed := true }

/-- One activation of `reveal_tile` without its recursive calls: the state it leaves
behind before the neighbour loop, whether the neighbour loop is entered, and the
value returned when it is not (the initial `successful` when it is). -/
def visit (s : State) (x y : Int) : State × Bool × Bool :=
  let tile := board_get s.board x y
  let s1 := unflag s tile
  if (s1.load tile).revealed then (s1, false, true)
  else
    let s2 := mark s1 tile
    if (s2.load tile).mine then (s2, false, false)
    else if (s2.load tile).number = 0 then (s2, true, true)
    else (s2, false, true)

/-- The coordinates the neighbour loop of `reveal_tile(board, x, y)` calls, in order. -/
def neighbours (x y : Int) : List (Int × Int) :=
  offsets.map (fun d => (x + d.1, y + d.2))

/-- The recursion of `reveal_tile` unrolled into a list of pending calls:
`Run s pending ok s1 ok1` says that making the calls of `pending` one after the
other from state `s`, and-ing their results into `ok`, ends in state `s1` with
conjunction `ok1`.  A call that enters its neighbour loop puts its nine calls in
front of the pending ones. -/
inductive Run : State → List (Int × Int) → Bool → State → Bool → Prop
  | done (s : State) (ok : Bool) : Run s [] ok s ok
  | call (s : State) (x y : Int) (rest : List (Int × Int)) (ok : Bool) (s1 : State) (ok1 : Bool) :
      Run (visit s x y).1
        ((if (visit s x y).2.1 then neighbours x y else []) ++ rest)
        (ok && (visit s x y).2.2) s1 ok1 →
      Run s ((x, y) :: rest) ok s1 ok1

/-- The number of tiles `reveal_tile` can still reveal: the hidden tiles of the
block, and the global `default_tile` when it is hidden. -/
def hidden_count (s : State) : Nat :=
  ((List.range (s.board.cols * s.board.rows).toNat).countP
      (fun i => !(s.board.tiles i).revealed))
    + (if s.default_tile.revealed then 0 else 1)

/-- What one call leaves fixed: the dimensions, every `mine` and `number` field;
a revealed tile stays revealed and an unflagged tile stays unflagged. -/
structure Extends (s s1 : State) : Prop where
  cols : s1.board.cols = s.board.cols
  rows : s1.board.rows = s.board.rows
  mine : ∀ p, (s1.load p).mine = (s.load p).mine
  number : ∀ p, (s1.load p).number = (s.load p).number
  revealed : ∀ p, (s.load p).revealed = true → (s1.load p).revealed = true
  flagged : ∀ p, (s.load p).flagged = false → (s1.load p).flagged = false

/-- What the numbering loops add to `tile->number` for the tile at `(x, y)`: the
`mine` fields of the nine tiles `board_get` returns around it, less its own. -/
def mine_sum (s : State) (x y : Int) : Int :=
  (offsets.map (fun d => bool_int (s.load (board_get s.board (x + d.1) (y + d.2))).mine)).sum
    - bool_int (s.load (board_get s.board x y)).mine

/-- The body of the innermost numbering loop (line 69). -/
def number_step (tile : TilePtr) (x y : Int) (acc : State) (d : Int × Int) : State :=
  acc.store tile
    { acc.load tile with
      number := (acc.load tile).number
        + bool_int (acc.load (board_get acc.board (x + d.1) (y + d.2))).mine }

/-- The region a reveal at the zero-number tile `(x, y)` opens: the tiles of its zero
region and their Moore neighbours. -/
def in_region (b : Board) (x y x1 y1 : Int) : Prop :=
  ∃ zx zy, ZeroReach b x y zx zy ∧ within_one zx zy x1 y1

/-- The two boards have the same dimensions and the same mines and numbers. -/
structure SameLayout (b b1 : Board) : Prop where
  cols : b1.cols = b.cols
  rows : b1.rows = b.rows
  mine : ∀ i, (b1.tiles i).mine = (b.tiles i).mine
  number : ∀ i, (b1.tiles i).number = (b.tiles i).number

/-- Every safe tile of the grid carries its adjacent-mine count. -/
def safe_numbers (b : Board) : Prop :=
  ∀ x y, in_bounds b x y → (b.at x y).mine = false →
    (b.at x y).number = (adjacent_mines b x y : Int)

/-- Every tile of the grid, mine or not, carries its adjacent-mine count. -/
def all_numbers (b : Board) : Prop :=
  ∀ x y, in_bounds b x y → (b.at x y).number = (adjacent_mines b x y : Int)

/-- Every revealed safe zero-number tile of the grid has all its in-bounds Moore
neighbours revealed. -/
def closed (b : Board) : Prop :=
  ∀ x1 y1, in_bounds b x1 y1 → (b.at x1 y1).revealed = true → (b.at x1 y1).mine = false →
    (b.at x1 y1).number = 0 →
    ∀ x2 y2, in_bounds b x2 y2 → within_one x1 y1 x2 y2 → (b.at x2 y2).revealed = true

/-! ## Basic facts about the state -/

@[simp] theorem load_store_same (s : State) (p : TilePtr) (t : Tile) :
    (s.store p t).load p = t := by
  cases p <;> simp [State.store, State.load, Board.setTile]

theorem load_store_ne (s : State) (p q : TilePtr) (t : Tile) (h : q ≠ p) :
    (s.store p t).load q = s.load q := by
  cases p <;> cases q <;> simp_all [State.store, State.load, Board.setTile]

@[simp] theorem store_cols (s : State) (p : TilePtr) (t : Tile) :
    (s.store p t).board.cols = s.board.cols := by
  cases p <;> rfl

@[simp] theorem store_rows (s : State) (p : TilePtr) (t : Tile) :
    (s.store p t).board.rows = s.board.rows := by
  cases p <;> rfl

@[simp] theorem store_mines_remaining (s : State) (p : TilePtr) (t : Tile) :
    (s.store p t).board.mines_remaining = s.board.mines_remaining := by
  cases p <;> rfl

theorem store_load_self (s : State) (p : TilePtr) : s.store p (s.load p) = s := by
  cases p with
  | default_tile => rfl
  | tiles off =>
    simp only [State.store, State.load, Board.setTile]
    have : (fun j => if j = off then s.board.tiles off else s.board.tiles j) = s.board.tiles := by
      funext j; split_ifs with h <;> simp [h]
    rw [this]

theorem store_store (s : State) (p : TilePtr) (t u : Tile) :
    (s.store p t).store p u = s.store p u := by
  cases p with
  | default_tile => rfl
  | tiles off =>
    simp only [State.store, Board.setTile]
    congr 2
    funext j; split_ifs <;> rfl

theorem board_get_congr (b c : Board) (hc : c.cols = b.cols) (hr : c.rows = b.rows) (x y : Int) :
    board_get c x y = board_get b x y := by
  simp [board_get, hc, hr]

theorem reveal_tile_fuel_succ (fuel : Nat) (s : State) (x y : Int) :
    reveal_tile_fuel (fuel + 1) s x y =
      if (visit s x y).2.1 then
        reveal_loop (reveal_tile_fuel fuel) x y offsets ((visit s x y).1, true)
      else some ((visit s x y).1, (visit s x y).2.2) := by
  simp only [reveal_tile_fuel, visit, unflag, mark]
  split_ifs <;> simp_all

theorem unflag_load (s : State) (p q : TilePtr) :
    (unflag s p).load q = if q = p then { s.load p with flagged := false } else s.load q := by
  unfold unflag
  by_cases hf : (s.load p).flagged = true
  · simp only [hf, if_true]
    by_cases hq : q = p
    · subst hq
      simp only [if_true]
      cases q <;> simp [State.store, State.load, Board.setTile]
    · simp only [hq, if_false]
      cases p <;> cases q <;> simp_all [State.store, State.load, Board.setTile]
  · simp only [hf]
    by_cases hq : q = p
    · subst hq
      simp only [if_true]
      cases h : s.load q
      simp_all
    · simp [hq]

theorem mark_load (s : State) (p q : TilePtr) :
    (mark s p).load q = if q = p then { s.load p with revealed := true } else s.load q := by
  unfold mark
  by_cases hq : q = p
  · subst hq; simp
  · simp [hq, load_store_ne]

@[simp] theorem unflag_cols (s : State) (p : TilePtr) : (unflag s p).board.cols = s.board.cols := by
  unfold unflag; split_ifs <;> simp

@[simp] theorem unflag_rows (s : State) (p : TilePtr) : (unflag s p).board.rows = s.board.rows := by
  unfold unflag; split_ifs <;> simp

@[simp] theorem mark_cols (s : State) (p : TilePtr) : (mark s p).board.cols = s.board.cols := by
  simp [mark]

@[simp] theorem mark_rows (s : State) (p : TilePtr) : (mark s p).board.rows = s.board.rows := by
  simp [mark]

theorem Extends.refl (s : State) : Extends s s :=
  ⟨rfl, rfl, fun _ => rfl, fun _ => rfl, fun _ h => h, fun _ h => h⟩

theorem Extends.trans {a b c : State} (h1 : Extends a b) (h2 : Extends b c) : Extends a c :=
  ⟨h2.cols.trans h1.cols, h2.rows.trans h1.rows,
    fun p => (h2.mine p).trans (h1.mine p), fun p => (h2.number p).trans (h1.number p),
    fun p h => h2.revealed p (h1.revealed p h), fun p h => h2.flagged p (h1.flagged p h)⟩

theorem unflag_extends (s : State) (p : TilePtr) : Extends s (unflag s p) := by
  refine ⟨by simp, by simp, ?_, ?_, ?_, ?_⟩ <;> intro q <;> rw [unflag_load] <;>
    split_ifs with h <;> simp_all

theorem mark_extends (s : State) (p : TilePtr) : Extends s (mark s p) := by
  refine ⟨by simp, by simp, ?_, ?_, ?_, ?_⟩ <;> intro q <;> rw [mark_load] <;>
    split_ifs with h <;> simp_all

/-- The state `visit` leaves behind is the state after the flag retraction, or that
state with the tile marked revealed as well. -/
theorem visit_state (s : State) (x y : Int) :
    ((visit s x y).1 = unflag s (board_get s.board x y) ∧
        ((unflag s (board_get s.board x y)).load (board_get s.board x y)).revealed = true ∧
        (visit s x y).2 = (false, true)) ∨
      ((visit s x y).1 = mark (unflag s (board_get s.board x y)) (board_get s.board x y) ∧
        ((unflag s (board_get s.board x y)).load (board_get s.board x y)).revealed = false) := by
  unfold visit
  by_cases h : ((unflag s (board_get s.board x y)).load (board_get s.board x y)).revealed = true
  · left; simp [h]
  · right
    have h2 : ((unflag s (board_get s.board x y)).load (board_get s.board x y)).revealed = false := by
      simpa using h
    refine ⟨?_, h2⟩
    simp only [h2, Bool.false_eq_true, if_false]
    split_ifs <;> rfl

theorem visit_extends (s : State) (x y : Int) : Extends s (visit s x y).1 := by
  rcases visit_state s x y with ⟨h, _, _⟩ | ⟨h, _⟩
  · rw [h]; exact unflag_extends s _
  · rw [h]; exact (unflag_extends s _).trans (mark_extends _ _)

/-- After one activation the addressed tile is revealed and not flagged. -/
theorem visit_target (s : State) (x y : Int) :
    ((visit s x y).1.load (board_get s.board x y)).revealed = true ∧
      ((visit s x y).1.load (board_get s.board x y)).flagged = false := by
  rcases visit_state s x y with ⟨h, hr, _⟩ | ⟨h, _⟩
  · rw [h]; refine ⟨hr, ?_⟩
    rw [unflag_load]; simp
  · rw [h]; rw [mark_load]; simp [unflag_load]

/-! ## Bounds -/

theorem board_get_in_bounds (b : Board) (x y : Int) (h : in_bounds b x y) :
    board_get b x y = TilePtr.tiles (y * b.cols + x).toNat := by
  obtain ⟨h1, h2, h3, h4⟩ := h
  simp [board_get, is_between, h1, h2, h3, h4]

theorem board_get_not_in_bounds (b : Board) (x y : Int) (h : ¬ in_bounds b x y) :
    board_get b x y = TilePtr.default_tile := by
  unfold in_bounds at h
  simp only [board_get, is_between]
  by_cases h1 : 0 ≤ x <;> by_cases h2 : x < b.cols <;> by_cases h3 : 0 ≤ y <;>
    by_cases h4 : y < b.rows <;> simp_all

theorem offset_lt (b : Board) (x y : Int) (h : in_bounds b x y) :
    (y * b.cols + x).toNat < (b.cols * b.rows).toNat := by
  obtain ⟨h1, h2, h3, h4⟩ := h
  have hy : y * b.cols ≤ (b.rows - 1) * b.cols :=
    mul_le_mul_of_nonneg_right (by omega) (by omega)
  have h0 : 0 ≤ y * b.cols := mul_nonneg h3 (by omega)
  have hlt : y * b.cols + x < b.cols * b.rows := by nlinarith
  omega

theorem board_get_tiles_lt (b : Board) (x y : Int) (off : Nat)
    (h : board_get b x y = TilePtr.tiles off) : off < (b.cols * b.rows).toNat := by
  by_cases hb : in_bounds b x y
  · rw [board_get_in_bounds b x y hb] at h
    injection h with h
    rw [← h]; exact offset_lt b x y hb
  · rw [board_get_not_in_bounds b x y hb] at h
    cases h

/-! ## Termination of `reveal_tile` -/

theorem countP_range_flip (n k : Nat) (f g : Nat → Bool) (hk : k < n) (hf : f k = true)
    (hg : g k = false) (h : ∀ i, i ≠ k → g i = f i) :
    (List.range n).countP g + 1 = (List.range n).countP f := by
  induction n with
  | zero => omega
  | succ n ih =>
    rw [List.range_succ, List.countP_append, List.countP_append]
    by_cases hkn : k = n
    · subst hkn
      have hsame : (List.range k).countP g = (List.range k).countP f := by
        apply List.countP_congr
        intro i hi
        have : i ≠ k := by
          have := List.mem_range.mp hi
          omega
        rw [h i this]
      simp [List.countP_cons, hf, hg, hsame]
    · have hlt : k < n := by omega
      have hn : g n = f n := h n (fun e => hkn e.symm)
      have := ih hlt
      simp only [List.countP_cons, List.countP_nil, hn]
      omega

theorem hidden_count_congr (s s1 : State) (hc : s1.board.cols = s.board.cols)
    (hr : s1.board.rows = s.board.rows)
    (h : ∀ p, (s1.load p).revealed = (s.load p).revealed) : hidden_count s1 = hidden_count s := by
  unfold hidden_count
  rw [hc, hr]
  have hd := h TilePtr.default_tile
  simp only [State.load] at hd
  rw [hd]
  congr 1
  apply List.countP_congr
  intro i _
  have := h (TilePtr.tiles i)
  simp only [State.load] at this
  simp [this]

theorem hidden_count_unflag (s : State) (p : TilePtr) : hidden_count (unflag s p) = hidden_count s := by
  apply hidden_count_congr <;> try simp
  intro q
  rw [unflag_load]; split_ifs with h <;> simp [h]

theorem hidden_count_mark (s : State) (x y : Int)
    (h : (s.load (board_get s.board x y)).revealed = false) :
    hidden_count (mark s (board_get s.board x y)) + 1 = hidden_count s := by
  cases hp : board_get s.board x y with
  | default_tile =>
    rw [hp] at h
    simp only [State.load] at h
    simp [hidden_count, mark, State.store, State.load, h]
  | tiles off =>
    rw [hp] at h
    simp only [State.load] at h
    have hlt := board_get_tiles_lt s.board x y off hp
    unfold hidden_count
    simp only [mark, State.store, State.load, Board.setTile]
    have := countP_range_flip (s.board.cols * s.board.rows).toNat off
      (fun i => !(s.board.tiles i).revealed)
      (fun i => !(if i = off then { s.board.tiles off with revealed := true } else s.board.tiles i).revealed)
      hlt (by simp [h]) (by simp) (by intro i hi; simp [hi])
    dsimp only at this
    omega

theorem hidden_count_visit (s : State) (x y : Int) :
    hidden_count (visit s x y).1 ≤ hidden_count s ∧
      ((visit s x y).2.1 = true → hidden_count (visit s x y).1 < hidden_count s) := by
  rcases visit_state s x y with ⟨h, _, h2⟩ | ⟨h, hr⟩
  · rw [h, h2, hidden_count_unflag]; simp
  · have hb : board_get (unflag s (board_get s.board x y)).board x y = board_get s.board x y :=
      board_get_congr _ _ (by simp) (by simp) x y
    have := hidden_count_mark (unflag s (board_get s.board x y)) x y (by rw [hb]; exact hr)
    rw [hb, hidden_count_unflag] at this
    rw [h]
    omega

theorem hidden_count_lt_depth (s : State) : hidden_count s < reveal_depth s := by
  unfold hidden_count reveal_depth
  have := List.countP_le_length (fun i => !(s.board.tiles i).revealed)
    (l := List.range (s.board.cols * s.board.rows).toNat)
  rw [List.length_range] at this
  split_ifs <;> omega

theorem reveal_loop_terminates (rec : State → Int → Int → Option (State × Bool)) (x y : Int)
    (n : Nat)
    (hrec : ∀ s x y, hidden_count s < n →
      ∃ r, rec s x y = some r ∧ hidden_count r.1 ≤ hidden_count s) :
    ∀ (ds : List (Int × Int)) (acc : State × Bool), hidden_count acc.1 < n →
      ∃ r, reveal_loop rec x y ds acc = some r ∧ hidden_count r.1 ≤ hidden_count acc.1 := by
  intro ds
  induction ds with
  | nil => intro acc _; exact ⟨acc, rfl, le_refl _⟩
  | cons d ds ih =>
    intro acc hacc
    obtain ⟨r1, hr1, hle1⟩ := hrec acc.1 (x + d.1) (y + d.2) hacc
    obtain ⟨r, hr, hle⟩ := ih (r1.1, acc.2 && r1.2) (by simp only; omega)
    refine ⟨r, ?_, ?_⟩
    · simp only [reveal_loop, hr1]; exact hr
    · simp only at hle; omega

/-- With more fuel than there are hidden tiles, `reveal_tile` returns. -/
theorem reveal_tile_fuel_terminates :
    ∀ (fuel : Nat) (s : State) (x y : Int), hidden_count s < fuel →
      ∃ r, reveal_tile_fuel fuel s x y = some r ∧ hidden_count r.1 ≤ hidden_count s := by
  intro fuel
  induction fuel with
  | zero => intro s x y h; omega
  | succ fuel ih =>
    intro s x y h
    rw [reveal_tile_fuel_succ]
    obtain ⟨hle, hlt⟩ := hidden_count_visit s x y
    by_cases hv : (visit s x y).2.1 = true
    · simp only [hv, if_true]
      have h1 := hlt hv
      obtain ⟨r, hr, hle2⟩ := reveal_loop_terminates (reveal_tile_fuel fuel) x y fuel
        (fun s x y hs => ih s x y hs) offsets ((visit s x y).1, true) (by simp only; omega)
      exact ⟨r, hr, by simp only at hle2; omega⟩
    · simp only [hv]
      exact ⟨_, rfl, hle⟩

theorem reveal_loop_mono (rec rec1 : State → Int → Int → Option (State × Bool)) (x y : Int)
    (hrec : ∀ s x y r, rec s x y = some r → rec1 s x y = some r) :
    ∀ (ds : List (Int × Int)) (acc r : State × Bool),
      reveal_loop rec x y ds acc = some r → reveal_loop rec1 x y ds acc = some r := by
  intro ds
  induction ds with
  | nil => intro acc r h; exact h
  | cons d ds ih =>
    intro acc r h
    simp only [reveal_loop] at h ⊢
    cases h1 : rec acc.1 (x + d.1) (y + d.2) with
    | none => rw [h1] at h; cases h
    | some r1 =>
      rw [h1] at h
      rw [hrec _ _ _ _ h1]
      exact ih _ _ h

/-- A result obtained with some fuel is obtained with any larger fuel. -/
theorem reveal_tile_fuel_mono :
    ∀ (fuel : Nat) (s : State) (x y : Int) (r : State × Bool),
      reveal_tile_fuel fuel s x y = some r → reveal_tile_fuel (fuel + 1) s x y = some r := by
  intro fuel
  induction fuel with
  | zero => intro s x y r h; simp [reveal_tile_fuel] at h
  | succ fuel ih =>
    intro s x y r h
    rw [reveal_tile_fuel_succ] at h ⊢
    by_cases hv : (visit s x y).2.1 = true
    · simp only [hv, if_true] at h ⊢
      exact reveal_loop_mono _ _ x y ih _ _ _ h
    · simp only [hv] at h ⊢
      exact h

theorem reveal_tile_fuel_mono_le (fuel fuel1 : Nat) (hle : fuel ≤ fuel1) (s : State) (x y : Int)
    (r : State × Bool) (h : reveal_tile_fuel fuel s x y = some r) :
    reveal_tile_fuel fuel1 s x y = some r := by
  induction hle with
  | refl => exact h
  | step _ ih => exact reveal_tile_fuel_mono _ _ _ _ _ ih

/-- The value of `reveal_tile` is the result of the recursion for every fuel from
`reveal_depth` on: the recursion returns, and its result does not depend on the
fuel. -/
theorem reveal_tile_fuel_eq (s : State) (x y : Int) (fuel : Nat) (h : reveal_depth s ≤ fuel) :
    reveal_tile_fuel fuel s x y = some (reveal_tile s x y) := by
  obtain ⟨r, hr, _⟩ := reveal_tile_fuel_terminates (reveal_depth s) s x y (hidden_count_lt_depth s)
  have : reveal_tile s x y = r := by simp [reveal_tile, hr]
  rw [this]
  exact reveal_tile_fuel_mono_le _ _ h s x y r hr

/-! ## The recursion as a list of pending calls -/

theorem visit_recurse_result (s : State) (x y : Int) (h : (visit s x y).2.1 = true) :
    (visit s x y).2.2 = true := by
  simp only [visit] at h ⊢
  split_ifs at h ⊢
  simp_all

theorem reveal_loop_run (rec : State → Int → Int → Option (State × Bool)) (x y : Int)
    (hrec : ∀ s x y r, rec s x y = some r →
      ∀ rest ok s1 ok1, Run r.1 rest (ok && r.2) s1 ok1 → Run s ((x, y) :: rest) ok s1 ok1) :
    ∀ (ds : List (Int × Int)) (acc r : State × Bool), reveal_loop rec x y ds acc = some r →
      ∃ b, r.2 = (acc.2 && b) ∧
        ∀ rest ok s1 ok1, Run r.1 rest (ok && b) s1 ok1 →
          Run acc.1 (ds.map (fun d => (x + d.1, y + d.2)) ++ rest) ok s1 ok1 := by
  intro ds
  induction ds with
  | nil =>
    intro acc r h
    simp only [reveal_loop, Option.some.injEq] at h
    subst h
    exact ⟨true, by simp, fun rest ok s1 ok1 hrun => by simpa using hrun⟩
  | cons d ds ih =>
    intro acc r h
    simp only [reveal_loop] at h
    cases h1 : rec acc.1 (x + d.1) (y + d.2) with
    | none => rw [h1] at h; cases h
    | some r1 =>
      rw [h1] at h
      obtain ⟨b, hb, hrun⟩ := ih _ _ h
      refine ⟨r1.2 && b, ?_, ?_⟩
      · rw [hb]; simp [Bool.and_assoc]
      · intro rest ok s1 ok1 hr
        simp only [List.map_cons, List.cons_append]
        apply hrec _ _ _ _ h1
        apply hrun
        rw [Bool.and_assoc]
        exact hr

theorem reveal_tile_fuel_run :
    ∀ (fuel : Nat) (s : State) (x y : Int) (r : State × Bool),
      reveal_tile_fuel fuel s x y = some r →
      ∀ rest ok s1 ok1, Run r.1 rest (ok && r.2) s1 ok1 → Run s ((x, y) :: rest) ok s1 ok1 := by
  intro fuel
  induction fuel with
  | zero => intro s x y r h; simp [reveal_tile_fuel] at h
  | succ fuel ih =>
    intro s x y r h rest ok s1 ok1 hrun
    rw [reveal_tile_fuel_succ] at h
    apply Run.call
    by_cases hv : (visit s x y).2.1 = true
    · simp only [hv, if_true] at h ⊢
      obtain ⟨b, hb, hloop⟩ := reveal_loop_run _ x y ih _ _ _ h
      apply hloop
      rw [visit_recurse_result s x y hv]
      simp only [Bool.true_and] at hb
      rw [hb] at hrun
      simpa using hrun
    · simp only [hv] at h ⊢
      simp only [Bool.false_eq_true, if_false, Option.some.injEq] at h
      subst h
      simpa using hrun

/-- The call `reveal_tile(board, x, y)` is the run of the single pending call
`(x, y)`. -/
theorem reveal_tile_run (s : State) (x y : Int) :
    Run s [(x, y)] true (reveal_tile s x y).1 (reveal_tile s x y).2 := by
  apply reveal_tile_fuel_run _ _ _ _ _ (reveal_tile_fuel_eq s x y _ (le_refl _))
  simpa using Run.done _ _

/-! ## Facts about every run -/

theorem run_extends {s : State} {l : List (Int × Int)} {ok : Bool} {s1 : State} {ok1 : Bool}
    (h : Run s l ok s1 ok1) : Extends s s1 := by
  induction h with
  | done s ok => exact Extends.refl s
  | call s x y rest ok s1 ok1 _ ih => exact (visit_extends s x y).trans ih

/-- Every pending call leaves the tile it addresses revealed and not flagged. -/
theorem run_targets {s : State} {l : List (Int × Int)} {ok : Bool} {s1 : State} {ok1 : Bool}
    (h : Run s l ok s1 ok1) :
    ∀ c ∈ l, (s1.load (board_get s.board c.1 c.2)).revealed = true ∧
      (s1.load (board_get s.board c.1 c.2)).flagged = false := by
  induction h with
  | done s ok => intro c hc; cases hc
  | call s x y rest ok s1 ok1 hrun ih =>
    intro c hc
    have hext := run_extends hrun
    rcases List.mem_cons.mp hc with hc0 | hc
    · subst hc0
      obtain ⟨h1, h2⟩ := visit_target s x y
      exact ⟨hext.revealed _ h1, hext.flagged _ h2⟩
    · have := ih c (List.mem_append_right _ hc)
      rwa [board_get_congr _ _ (visit_extends s x y).cols (visit_extends s x y).rows] at this

theorem reveal_tile_extends (s : State) (x y : Int) : Extends s (reveal_tile s x y).1 :=
  run_extends (reveal_tile_run s x y)

theorem reveal_tile_target (s : State) (x y : Int) :
    ((reveal_tile s x y).1.load (board_get s.board x y)).revealed = true ∧
      ((reveal_tile s x y).1.load (board_get s.board x y)).flagged = false :=
  run_targets (reveal_tile_run s x y) (x, y) (List.mem_singleton.mpr rfl)

/-- A call that does not enter the neighbour loop returns what `visit` computes. -/
theorem reveal_tile_no_loop (s : State) (x y : Int) (h : (visit s x y).2.1 = false) :
    reveal_tile s x y = ((visit s x y).1, (visit s x y).2.2) := by
  have := reveal_tile_fuel_eq s x y (reveal_depth s) (le_refl _)
  unfold reveal_depth at this
  rw [reveal_tile_fuel_succ, h] at this
  simpa using this.symm

theorem unflag_of_not_flagged (s : State) (p : TilePtr) (h : (s.load p).flagged = false) :
    unflag s p = s := by
  simp [unflag, h]

theorem visit_of_revealed (s : State) (x y : Int)
    (hf : (s.load (board_get s.board x y)).flagged = false)
    (hr : (s.load (board_get s.board x y)).revealed = true) :
    visit s x y = (s, false, true) := by
  simp [visit, unflag_of_not_flagged s _ hf, hr]

theorem board_get_inj (b : Board) (x y x1 y1 : Int) (h : in_bounds b x y)
    (h1 : in_bounds b x1 y1) (he : board_get b x y = board_get b x1 y1) : x = x1 ∧ y = y1 := by
  rw [board_get_in_bounds b x y h, board_get_in_bounds b x1 y1 h1] at he
  injection he with he
  obtain ⟨a1, a2, a3, a4⟩ := h
  obtain ⟨b1, b2, b3, b4⟩ := h1
  have h0 : 0 ≤ y * b.cols + x := add_nonneg (mul_nonneg a3 (by omega)) a1
  have h0' : 0 ≤ y1 * b.cols + x1 := add_nonneg (mul_nonneg b3 (by omega)) b1
  have heq : y * b.cols + x = y1 * b.cols + x1 := by omega
  have hy : y = y1 := by
    rcases lt_trichotomy y y1 with hlt | heq1 | hgt
    · have : (y + 1) * b.cols ≤ y1 * b.cols := mul_le_mul_of_nonneg_right (by omega) (by omega)
      nlinarith
    · exact heq1
    · have : (y1 + 1) * b.cols ≤ y * b.cols := mul_le_mul_of_nonneg_right (by omega) (by omega)
      nlinarith
  subst hy
  exact ⟨by omega, rfl⟩

theorem board_get_ne (b : Board) (x y x1 y1 : Int) (h : in_bounds b x y)
    (h1 : in_bounds b x1 y1) (hne : (x1, y1) ≠ (x, y)) : board_get b x1 y1 ≠ board_get b x y := by
  intro he
  obtain ⟨rfl, rfl⟩ := board_get_inj b x y x1 y1 h h1 he.symm
  exact hne rfl

theorem board_get_ne_default (b : Board) (x y : Int) (h : in_bounds b x y) :
    TilePtr.default_tile ≠ board_get b x y := by
  rw [board_get_in_bounds b x y h]; intro h; cases h

/-- A call on a hidden tile that is a mine or has a nonzero number: the result is
the state with the flag retracted and the tile marked, nothing else. -/
theorem visit_single (s : State) (x y : Int)
    (hr : (s.load (board_get s.board x y)).revealed = false)
    (hm : (s.load (board_get s.board x y)).mine = true ∨
      (s.load (board_get s.board x y)).number ≠ 0) :
    visit s x y = (mark (unflag s (board_get s.board x y)) (board_get s.board x y), false,
      !(s.load (board_get s.board x y)).mine) := by
  simp only [visit]
  have h1 : ((unflag s (board_get s.board x y)).load (board_get s.board x y)).revealed = false := by
    rw [unflag_load]; simpa using hr
  have h2 : ((mark (unflag s (board_get s.board x y)) (board_get s.board x y)).load
      (board_get s.board x y)).mine = (s.load (board_get s.board x y)).mine :=
    ((unflag_extends s _).trans (mark_extends _ _)).mine _
  have h3 : ((mark (unflag s (board_get s.board x y)) (board_get s.board x y)).load
      (board_get s.board x y)).number = (s.load (board_get s.board x y)).number :=
    ((unflag_extends s _).trans (mark_extends _ _)).number _
  rw [h1, h2, h3]
  rcases hm with hm | hm
  · simp [hm]
  · cases hmine : (s.load (board_get s.board x y)).mine <;> simp [hm]

theorem mark_unflag_load_ne (s : State) (p q : TilePtr) (h : q ≠ p) :
    (mark (unflag s p) p).load q = s.load q := by
  rw [mark_load, if_neg h, unflag_load, if_neg h]

theorem adjacent_mines_pos (b : Board) (x y : Int) (d : Int × Int) (hd : d ∈ moore_offsets)
    (hb : in_bounds b (x + d.1) (y + d.2)) (hm : (b.at (x + d.1) (y + d.2)).mine = true) :
    0 < adjacent_mines b x y := by
  unfold adjacent_mines
  rw [List.countP_pos_iff]
  exact ⟨d, hd, by simp [hb, hm]⟩

theorem load_board_get_in_bounds (s : State) (x y : Int) (h : in_bounds s.board x y) :
    s.load (board_get s.board x y) = s.board.at x y := by
  rw [board_get_in_bounds s.board x y h]; rfl

/-- On a grid with more than one tile, a tile all of whose fellow tiles are mines has
at least one adjacent mine. -/
theorem adjacent_mines_pos_of_all_mines (b : Board) (x y : Int) (hb : in_bounds b x y)
    (hall : ∀ x1 y1, in_bounds b x1 y1 → (x1, y1) ≠ (x, y) → (b.at x1 y1).mine = true)
    (hsize : 1 < b.cols ∨ 1 < b.rows) : 0 < adjacent_mines b x y := by
  obtain ⟨h1, h2, h3, h4⟩ := hb
  rcases hsize with hc | hr
  · by_cases hx : x + 1 < b.cols
    · have hin : in_bounds b (x + 1) (y + 0) := ⟨by omega, hx, by omega, by omega⟩
      exact adjacent_mines_pos b x y (1, 0) (by decide) hin
        (hall _ _ hin (by intro h; injection h with h _; omega))
    · have hin : in_bounds b (x + (-1)) (y + 0) := ⟨by omega, by omega, by omega, by omega⟩
      exact adjacent_mines_pos b x y (-1, 0) (by decide) hin
        (hall _ _ hin (by intro h; injection h with h _; omega))
  · by_cases hy : y + 1 < b.rows
    · have hin : in_bounds b (x + 0) (y + 1) := ⟨by omega, by omega, by omega, hy⟩
      exact adjacent_mines_pos b x y (0, 1) (by decide) hin
        (hall _ _ hin (by intro h; injection h with _ h; omega))
    · have hin : in_bounds b (x + 0) (y + (-1)) := ⟨by omega, by omega, by omega, by omega⟩
      exact adjacent_mines_pos b x y (0, -1) (by decide) hin
        (hall _ _ hin (by intro h; injection h with _ h; omega))

theorem unflag_toggle_flag (s : State) (x y : Int)
    (hr : (s.load (board_get s.board x y)).revealed = false)
    (hf : (s.load (board_get s.board x y)).flagged = false) :
    unflag (toggle_flag s x y) (board_get s.board x y) = s := by
  cases hp : board_get s.board x y with
  | default_tile =>
    rw [hp] at hr hf
    simp only [State.load] at hr hf
    simp [toggle_flag, unflag, hp, State.load, State.store, hr, hf]
    cases s with
    | mk board dt =>
      cases board
      cases dt
      simp_all
  | tiles off =>
    rw [hp] at hr hf
    simp only [State.load] at hr hf
    simp [toggle_flag, unflag, hp, State.load, State.store, Board.setTile, hr, hf]
    cases s with
    | mk board dt =>
      cases board with
      | mk tiles cols rows mr =>
        simp only [State.mk.injEq, Board.mk.injEq, and_true, true_and]
        funext j
        split_ifs with h
        · subst h
          cases ht : tiles j
          simp_all
        · rfl

theorem toggle_flag_cols (s : State) (x y : Int) : (toggle_flag s x y).board.cols = s.board.cols := by
  simp only [toggle_flag]; split_ifs <;> simp

theorem toggle_flag_rows (s : State) (x y : Int) : (toggle_flag s x y).board.rows = s.board.rows := by
  simp only [toggle_flag]; split_ifs <;> simp

/-! ## Mine placement -/

theorem place_mines_count (size mines : Int) (hsize : 0 < size) :
    ∀ (rs : List Nat) (i : Int) (tiles tiles1 : Nat → Tile), i ≤ mines →
      place_mines size mines rs i tiles = some tiles1 →
      ((List.range size.toNat).countP (fun j => (tiles1 j).mine) : Int)
        = (List.range size.toNat).countP (fun j => (tiles j).mine) + (mines - i) := by
  intro rs
  induction rs with
  | nil =>
    intro i tiles tiles1 hi h
    simp only [place_mines] at h
    split_ifs at h with hlt
    simp only [Option.some.injEq] at h
    subst h
    have : mines - i = 0 := by omega
    rw [this]; simp
  | cons r rest ih =>
    intro i tiles tiles1 hi h
    simp only [place_mines] at h
    split_ifs at h with hlt hmine
    · have := ih _ _ _ (by omega) h
      rw [this]; ring
    · have := ih _ _ _ (by omega) h
      rw [this]
      have hidx0 : 0 ≤ (r : Int) % size := Int.emod_nonneg _ (by omega)
      have hidx1 : (r : Int) % size < size := Int.emod_lt_of_pos _ hsize
      have hk : ((r : Int) % size).toNat < size.toNat := by omega
      have hflip := countP_range_flip size.toNat ((r : Int) % size).toNat
        (fun j => (if j = ((r : Int) % size).toNat then
          { tiles ((r : Int) % size).toNat with mine := true } else tiles j).mine)
        (fun j => (tiles j).mine) hk (by simp) (by simpa using hmine)
        (by intro j hj; simp [hj])
      dsimp only at hflip
      rw [← hflip]
      push_cast
      ring
    · simp only [Option.some.injEq] at h
      subst h
      have : mines - i = 0 := by omega
      rw [this]; simp

/-! ## The numbering loops -/

theorem number_fold_load (tile : TilePtr) (x y : Int) :
    ∀ (ds : List (Int × Int)) (s : State),
      (ds.foldl (number_step tile x y) s).board.cols = s.board.cols ∧
      (ds.foldl (number_step tile x y) s).board.rows = s.board.rows ∧
      ∀ q, (ds.foldl (number_step tile x y) s).load q =
        if q = tile then
          { s.load tile with
            number := (s.load tile).number +
              (ds.map (fun d =>
                bool_int (s.load (board_get s.board (x + d.1) (y + d.2))).mine)).sum }
        else s.load q := by
  intro ds
  induction ds with
  | nil =>
    intro s
    refine ⟨rfl, rfl, ?_⟩
    intro q
    split_ifs with h
    · subst h; simp
    · rfl
  | cons d ds ih =>
    intro s
    obtain ⟨hc, hr, hl⟩ := ih (number_step tile x y s d)
    have hc1 : (number_step tile x y s d).board.cols = s.board.cols := by simp [number_step]
    have hr1 : (number_step tile x y s d).board.rows = s.board.rows := by simp [number_step]
    have hmine : ∀ p, ((number_step tile x y s d).load p).mine = (s.load p).mine := by
      intro p
      by_cases hp : p = tile
      · subst hp; simp [number_step]
      · simp [number_step, load_store_ne _ _ _ _ hp]
    refine ⟨by rw [List.foldl_cons, hc, hc1], by rw [List.foldl_cons, hr, hr1], ?_⟩
    intro q
    rw [List.foldl_cons, hl q]
    split_ifs with h
    · have hsum : (ds.map (fun d1 => bool_int ((number_step tile x y s d).load
          (board_get (number_step tile x y s d).board (x + d1.1) (y + d1.2))).mine))
          = ds.map (fun d1 => bool_int (s.load (board_get s.board (x + d1.1) (y + d1.2))).mine) := by
        apply List.map_congr_left
        intro d1 _
        rw [board_get_congr _ _ hc1 hr1, hmine]
      rw [hsum]
      simp only [number_step, load_store_same, List.map_cons, List.sum_cons]
      simp only [Tile.mk.injEq, and_true, true_and]
      ring
    · simp [number_step, load_store_ne _ _ _ _ h]

theorem number_tile_eq (s : State) (x y : Int) :
    number_tile s x y =
      (offsets.foldl (number_step (board_get s.board x y) x y) s).store (board_get s.board x y)
        { (offsets.foldl (number_step (board_get s.board x y) x y) s).load (board_get s.board x y)
          with number :=
            ((offsets.foldl (number_step (board_get s.board x y) x y) s).load
                (board_get s.board x y)).number
              - bool_int ((offsets.foldl (number_step (board_get s.board x y) x y) s).load
                (board_get s.board x y)).mine } := rfl

/-- The effect of the loop body for one tile: its number grows by `mine_sum`, and
nothing else changes. -/
theorem number_tile_load (s : State) (x y : Int) :
    (number_tile s x y).board.cols = s.board.cols ∧
    (number_tile s x y).board.rows = s.board.rows ∧
    ∀ q, (number_tile s x y).load q =
      if q = board_get s.board x y then
        { s.load q with number := (s.load q).number + mine_sum s x y }
      else s.load q := by
  obtain ⟨hc, hr, hl⟩ := number_fold_load (board_get s.board x y) x y offsets s
  rw [number_tile_eq]
  refine ⟨by simp [hc], by simp [hr], ?_⟩
  intro q
  by_cases hq : q = board_get s.board x y
  · subst hq
    simp only [load_store_same, if_true, hl, mine_sum]
    simp only [Tile.mk.injEq, and_true, true_and]
    ring
  · rw [load_store_ne _ _ _ _ hq, hl q, if_neg hq, if_neg hq]

theorem mine_sum_congr (s s1 : State) (hc : s1.board.cols = s.board.cols)
    (hr : s1.board.rows = s.board.rows) (hm : ∀ p, (s1.load p).mine = (s.load p).mine)
    (x y : Int) : mine_sum s1 x y = mine_sum s x y := by
  unfold mine_sum
  rw [board_get_congr _ _ hc hr, hm]
  congr 2
  apply List.map_congr_left
  intro d _
  rw [board_get_congr _ _ hc hr, hm]

theorem number_row_load (y : Int) :
    ∀ (xs : List Nat) (s : State),
      (xs.foldl (fun (acc2 : State) (x : Nat) => number_tile acc2 (x : Int) y) s).board.cols = s.board.cols ∧
      (xs.foldl (fun (acc2 : State) (x : Nat) => number_tile acc2 (x : Int) y) s).board.rows = s.board.rows ∧
      ∀ q, (xs.foldl (fun (acc2 : State) (x : Nat) => number_tile acc2 (x : Int) y) s).load q =
        { s.load q with
          number := (s.load q).number +
            (xs.map (fun x : Nat =>
              if board_get s.board (x : Int) y = q then mine_sum s (x : Int) y else 0)).sum } := by
  intro xs
  induction xs with
  | nil => intro s; exact ⟨rfl, rfl, fun q => by simp⟩
  | cons x xs ih =>
    intro s
    obtain ⟨hc, hr, hl⟩ := ih (number_tile s (x : Int) y)
    obtain ⟨hc1, hr1, hl1⟩ := number_tile_load s (x : Int) y
    have hmine : ∀ p, ((number_tile s (x : Int) y).load p).mine = (s.load p).mine := by
      intro p; rw [hl1 p]; split_ifs <;> rfl
    refine ⟨by rw [List.foldl_cons, hc, hc1], by rw [List.foldl_cons, hr, hr1], ?_⟩
    intro q
    rw [List.foldl_cons, hl q]
    have hsum : (xs.map (fun x1 : Nat =>
          if board_get (number_tile s (x : Int) y).board (x1 : Int) y = q
          then mine_sum (number_tile s (x : Int) y) (x1 : Int) y else 0))
        = xs.map (fun x1 : Nat =>
          if board_get s.board (x1 : Int) y = q then mine_sum s (x1 : Int) y else 0) := by
      apply List.map_congr_left
      intro x1 _
      rw [board_get_congr _ _ hc1 hr1, mine_sum_congr s _ hc1 hr1 hmine]
    rw [hsum, hl1 q]
    by_cases hq : q = board_get s.board (x : Int) y
    · subst hq
      simp only [if_true, List.map_cons, List.sum_cons, Tile.mk.injEq, and_true, true_and]
      ring
    · have hq2 : ¬ board_get s.board (x : Int) y = q := fun e => hq e.symm
      simp only [if_neg hq, List.map_cons, List.sum_cons, if_neg hq2, zero_add]

theorem number_rows_load (xs : List Nat) :
    ∀ (ys : List Nat) (s : State),
      (ys.foldl
          (fun (acc : State) (y : Nat) =>
            xs.foldl (fun (acc2 : State) (x : Nat) => number_tile acc2 (x : Int) (y : Int)) acc)
          s).board.cols = s.board.cols ∧
      (ys.foldl
          (fun (acc : State) (y : Nat) =>
            xs.foldl (fun (acc2 : State) (x : Nat) => number_tile acc2 (x : Int) (y : Int)) acc)
          s).board.rows = s.board.rows ∧
      ∀ q, (ys.foldl
          (fun (acc : State) (y : Nat) =>
            xs.foldl (fun (acc2 : State) (x : Nat) => number_tile acc2 (x : Int) (y : Int)) acc)
          s).load q =
        { s.load q with
          number := (s.load q).number +
            (ys.map (fun y : Nat => (xs.map (fun x : Nat =>
              if board_get s.board (x : Int) (y : Int) = q
              then mine_sum s (x : Int) (y : Int) else 0)).sum)).sum } := by
  intro ys
  induction ys with
  | nil => intro s; exact ⟨rfl, rfl, fun q => by simp⟩
  | cons y ys ih =>
    intro s
    obtain ⟨hc1, hr1, hl1⟩ := number_row_load (y : Int) xs s
    obtain ⟨hc, hr, hl⟩ := ih (xs.foldl (fun (acc2 : State) (x : Nat) => number_tile acc2 (x : Int) (y : Int)) s)
    have hmine : ∀ p, ((xs.foldl (fun (acc2 : State) (x : Nat) => number_tile acc2 (x : Int) (y : Int)) s).load p).mine
        = (s.load p).mine := by
      intro p; rw [hl1 p]
    refine ⟨by rw [List.foldl_cons, hc, hc1], by rw [List.foldl_cons, hr, hr1], ?_⟩
    intro q
    rw [List.foldl_cons, hl q]
    have hsum : (ys.map (fun y1 : Nat => (xs.map (fun x1 : Nat =>
          if board_get (xs.foldl (fun (acc2 : State) (x : Nat) => number_tile acc2 (x : Int) (y : Int)) s).board
              (x1 : Int) (y1 : Int) = q
          then mine_sum (xs.foldl (fun (acc2 : State) (x : Nat) => number_tile acc2 (x : Int) (y : Int)) s)
              (x1 : Int) (y1 : Int) else 0)).sum))
        = ys.map (fun y1 : Nat => (xs.map (fun x1 : Nat =>
          if board_get s.board (x1 : Int) (y1 : Int) = q
          then mine_sum s (x1 : Int) (y1 : Int) else 0)).sum) := by
      apply List.map_congr_left
      intro y1 _
      congr 1
      apply List.map_congr_left
      intro x1 _
      rw [board_get_congr _ _ hc1 hr1, mine_sum_congr s _ hc1 hr1 hmine]
    rw [hsum, hl1 q]
    simp only [List.map_cons, List.sum_cons, Tile.mk.injEq, and_true, true_and]
    ring

theorem sum_range_zero (n : Nat) (f : Nat → Int) (h : ∀ i, i < n → f i = 0) :
    ((List.range n).map f).sum = 0 := by
  induction n with
  | zero => rfl
  | succ n ih =>
    rw [List.range_succ, List.map_append, List.sum_append, ih (fun i hi => h i (by omega))]
    simp [h n (by omega)]

theorem sum_range_single (n k : Nat) (f : Nat → Int) (hk : k < n)
    (h : ∀ i, i < n → i ≠ k → f i = 0) : ((List.range n).map f).sum = f k := by
  induction n with
  | zero => omega
  | succ n ih =>
    rw [List.range_succ, List.map_append, List.sum_append]
    by_cases hkn : k = n
    · subst hkn
      rw [sum_range_zero k f (fun i hi => h i (by omega) (by omega))]
      simp
    · rw [ih (by omega) (fun i hi hne => h i (by omega) hne)]
      simp [h n (by omega) (fun e => hkn e.symm)]

/-- After the numbering loops every tile of the grid has had `mine_sum` added to its
number once, and nothing else has changed. -/
theorem number_pass_load (s : State) :
    (number_pass s).board.cols = s.board.cols ∧
    (number_pass s).board.rows = s.board.rows ∧
    (∀ q, ((number_pass s).load q).mine = (s.load q).mine ∧
      ((number_pass s).load q).revealed = (s.load q).revealed ∧
      ((number_pass s).load q).flagged = (s.load q).flagged) ∧
    (number_pass s).load TilePtr.default_tile = s.load TilePtr.default_tile ∧
    ∀ x y, in_bounds s.board x y →
      ((number_pass s).load (board_get s.board x y)).number
        = (s.load (board_get s.board x y)).number + mine_sum s x y := by
  obtain ⟨hc, hr, hl⟩ := number_rows_load (List.range s.board.cols.toNat)
    (List.range s.board.rows.toNat) s
  have hin : ∀ (x1 y1 : Nat), x1 < s.board.cols.toNat → y1 < s.board.rows.toNat →
      in_bounds s.board (x1 : Int) (y1 : Int) := by
    intro x1 y1 h1 h2
    exact ⟨by omega, by omega, by omega, by omega⟩
  refine ⟨hc, hr, fun q => ?_, ?_, ?_⟩
  · unfold number_pass; rw [hl q]; exact ⟨rfl, rfl, rfl⟩
  · unfold number_pass; rw [hl]
    have : (List.map (fun y : Nat => (List.map (fun x : Nat =>
        if board_get s.board (x : Int) (y : Int) = TilePtr.default_tile
        then mine_sum s (x : Int) (y : Int) else 0) (List.range s.board.cols.toNat)).sum)
        (List.range s.board.rows.toNat)).sum = 0 := by
      apply sum_range_zero
      intro y1 hy1
      apply sum_range_zero
      intro x1 hx1
      rw [if_neg]
      exact fun e => board_get_ne_default s.board _ _ (hin x1 y1 hx1 hy1) e.symm
    rw [this]; simp
  · intro x y hb
    unfold number_pass; rw [hl]
    simp only
    congr 1
    obtain ⟨h1, h2, h3, h4⟩ := hb
    have hx : ((x.toNat : Nat) : Int) = x := Int.toNat_of_nonneg h1
    have hy : ((y.toNat : Nat) : Int) = y := Int.toNat_of_nonneg h3
    rw [sum_range_single s.board.rows.toNat y.toNat _ (by omega)]
    · simp only [hy]
      rw [sum_range_single s.board.cols.toNat x.toNat _ (by omega)]
      · simp [hx]
      · intro x1 hx1 hne
        rw [if_neg]
        intro e
        have := (board_get_inj s.board _ _ _ _ (hin x1 y.toNat hx1 (by omega))
          ⟨h1, h2, h3, h4⟩ (by rw [hy]; exact e)).1
        omega
    · intro y1 hy1 hne
      apply sum_range_zero
      intro x1 hx1
      rw [if_neg]
      intro e
      have := (board_get_inj s.board _ _ _ _ (hin x1 y1 hx1 hy1) ⟨h1, h2, h3, h4⟩ e).2
      omega

theorem bool_int_mine (s : State) (hd : s.default_tile.mine = false) (x1 y1 : Int) :
    bool_int (s.load (board_get s.board x1 y1)).mine =
      if (decide (in_bounds s.board x1 y1) && (s.board.at x1 y1).mine) = true then 1 else 0 := by
  by_cases hb : in_bounds s.board x1 y1
  · rw [load_board_get_in_bounds s x1 y1 hb]; simp [hb, bool_int]
  · rw [board_get_not_in_bounds _ _ _ hb]; simp [hb, bool_int, State.load, hd]

/-- The amount the code adds to a tile's number is the adjacent-mine count of the
specification, as long as the global `default_tile` is not a mine. -/
theorem mine_sum_eq_adjacent_mines (s : State) (hd : s.default_tile.mine = false) (x y : Int) :
    mine_sum s x y = (adjacent_mines s.board x y : Int) := by
  unfold mine_sum adjacent_mines
  simp only [offsets, moore_offsets, List.map_cons, List.map_nil, List.sum_cons, List.sum_nil,
    List.countP_cons, List.countP_nil, bool_int_mine s hd, add_zero]
  rw [← bool_int_mine s hd x y]
  push_cast
  ring

theorem adjacent_mines_congr (b b1 : Board) (hc : b1.cols = b.cols) (hr : b1.rows = b.rows)
    (hm : ∀ i, (b1.tiles i).mine = (b.tiles i).mine) (x y : Int) :
    adjacent_mines b1 x y = adjacent_mines b x y := by
  unfold adjacent_mines
  apply List.countP_congr
  intro d _
  simp only [in_bounds, Board.at, hc, hr, hm]

theorem adjacent_mines_le (b : Board) (x y : Int) : adjacent_mines b x y ≤ 8 := by
  unfold adjacent_mines
  exact List.countP_le_length _

theorem place_mines_fields (size mines : Int) :
    ∀ (rs : List Nat) (i : Int) (tiles tiles1 : Nat → Tile),
      place_mines size mines rs i tiles = some tiles1 →
      ∀ j, (tiles1 j).number = (tiles j).number ∧ (tiles1 j).revealed = (tiles j).revealed ∧
        (tiles1 j).flagged = (tiles j).flagged := by
  intro rs
  induction rs with
  | nil =>
    intro i tiles tiles1 h j
    simp only [place_mines] at h
    split_ifs at h
    simp only [Option.some.injEq] at h
    subst h
    exact ⟨rfl, rfl, rfl⟩
  | cons r rest ih =>
    intro i tiles tiles1 h j
    simp only [place_mines] at h
    split_ifs at h with hlt hmine
    · exact ih _ _ _ h j
    · have := ih _ _ _ h j
      simp only at this
      split_ifs at this with hj
      · subst hj; exact this
      · exact this
    · simp only [Option.some.injEq] at h
      subst h
      exact ⟨rfl, rfl, rfl⟩

/-- On a 3 x 3 grid whose only mine is the centre, every other tile has exactly one
adjacent mine. -/
theorem adjacent_mines_centre (b : Board) (hc : b.cols = 3) (hr : b.rows = 3)
    (hm : ∀ x1 y1, in_bounds b x1 y1 → ((b.at x1 y1).mine = true ↔ (x1 = 1 ∧ y1 = 1)))
    (x y : Int) (hb : in_bounds b x y) (hne : ¬ (x = 1 ∧ y = 1)) : adjacent_mines b x y = 1 := by
  have key : adjacent_mines b x y = moore_offsets.countP (fun d =>
      decide (0 ≤ x + d.1 ∧ x + d.1 < 3 ∧ 0 ≤ y + d.2 ∧ y + d.2 < 3) &&
        decide (x + d.1 = 1 ∧ y + d.2 = 1)) := by
    unfold adjacent_mines
    apply List.countP_congr
    intro d _
    simp only [Bool.and_eq_true, decide_eq_true_eq]
    have hiff : in_bounds b (x + d.1) (y + d.2) ↔
        (0 ≤ x + d.1 ∧ x + d.1 < 3 ∧ 0 ≤ y + d.2 ∧ y + d.2 < 3) := by
      simp only [in_bounds, hc, hr]
    constructor
    · rintro ⟨hin, hmine⟩
      exact ⟨hiff.mp hin, (hm _ _ hin).mp hmine⟩
    · rintro ⟨h2, h3⟩
      exact ⟨hiff.mpr h2, (hm _ _ (hiff.mpr h2)).mpr h3⟩
  rw [key]
  obtain ⟨h1, h2, h3, h4⟩ := hb
  rw [hc] at h2
  rw [hr] at h4
  interval_cases x <;> interval_cases y <;> first | (exfalso; exact hne ⟨rfl, rfl⟩) | decide

/-- What `create_board` returns, spelled out: the numbering loops run on the
zero-initialised block with the mines placed. -/
theorem create_board_eq (dt : Tile) (cols rows mines : Int) (rs : List Nat) (s : State)
    (h : create_board dt cols rows mines rs = some s) :
    ∃ tiles, place_mines (cols * rows) mines rs 0 calloc_tiles = some tiles ∧
      s = number_pass
        { board := { tiles := tiles, cols := cols, rows := rows, mines_remaining := mines },
          default_tile := dt } := by
  unfold create_board at h
  simp only at h
  cases hp : place_mines (cols * rows) mines rs 0 calloc_tiles with
  | none => rw [hp] at h; cases h
  | some tiles =>
    rw [hp] at h
    simp only [Option.some.injEq] at h
    exact ⟨tiles, rfl, h.symm⟩

theorem number_pass_in_bounds (s0 : State) (x y : Int) :
    in_bounds (number_pass s0).board x y ↔ in_bounds s0.board x y := by
  obtain ⟨hc, hr, _⟩ := number_pass_load s0
  simp only [in_bounds, hc, hr]

/-- The numbering loops add to every tile of the grid its adjacent-mine count. -/
theorem number_pass_numbers (s0 : State) (hd : s0.default_tile.mine = false) (x y : Int)
    (hb : in_bounds s0.board x y) :
    ((number_pass s0).board.at x y).number
      = (s0.board.at x y).number + (adjacent_mines (number_pass s0).board x y : Int) := by
  obtain ⟨hc, hr, hfields, _, hnum⟩ := number_pass_load s0
  have h1 := hnum x y hb
  have e : (number_pass s0).load (board_get s0.board x y) = (number_pass s0).board.at x y := by
    rw [board_get_in_bounds _ _ _ hb]
    simp only [State.load, Board.at, hc]
  rw [e, load_board_get_in_bounds s0 x y hb, mine_sum_eq_adjacent_mines _ hd] at h1
  rw [h1]
  congr 2
  symm
  apply adjacent_mines_congr _ _ hc hr
  intro i
  exact (hfields (TilePtr.tiles i)).1

/-! ## The return value of `reveal_tile` -/

/-- One activation returns `false` exactly when the addressed tile is a hidden mine. -/
theorem visit_result_false (s : State) (x y : Int) :
    (visit s x y).2.2 = false ↔
      (s.load (board_get s.board x y)).revealed = false ∧
        (s.load (board_get s.board x y)).mine = true := by
  have h1 : ((unflag s (board_get s.board x y)).load (board_get s.board x y)).revealed
      = (s.load (board_get s.board x y)).revealed := by
    rw [unflag_load]; simp
  have h2 : ((mark (unflag s (board_get s.board x y)) (board_get s.board x y)).load
      (board_get s.board x y)).mine = (s.load (board_get s.board x y)).mine :=
    ((unflag_extends s _).trans (mark_extends _ _)).mine _
  simp only [visit, h1, h2]
  cases hr : (s.load (board_get s.board x y)).revealed <;>
    cases hm : (s.load (board_get s.board x y)).mine <;> simp
  split_ifs <;> rfl

/-- One activation changes the `revealed` field of the addressed tile only. -/
theorem visit_revealed (s : State) (x y : Int) (p : TilePtr)
    (h : ((visit s x y).1.load p).revealed = true) :
    (s.load p).revealed = true ∨
      (p = board_get s.board x y ∧ (s.load (board_get s.board x y)).revealed = false) := by
  rcases visit_state s x y with ⟨hv, _, _⟩ | ⟨hv, hr⟩
  · rw [hv, unflag_load] at h
    left
    split_ifs at h with hp
    · subst hp; simpa using h
    · exact h
  · rw [hv, mark_load] at h
    rw [unflag_load, if_pos rfl] at hr
    by_cases hp : p = board_get s.board x y
    · right; exact ⟨hp, by simpa using hr⟩
    · left
      rw [if_neg hp, unflag_load, if_neg hp] at h
      exact h

/-- The conjunction a run ends with is `true` exactly when it started `true` and no
mine tile went from hidden to revealed. -/
theorem run_result {s : State} {l : List (Int × Int)} {ok : Bool} {s1 : State} {ok1 : Bool}
    (h : Run s l ok s1 ok1) :
    ok1 = true ↔ (ok = true ∧
      ¬ ∃ p, (s.load p).mine = true ∧ (s.load p).revealed = false ∧
        (s1.load p).revealed = true) := by
  induction h with
  | done s ok =>
    constructor
    · intro h
      refine ⟨h, ?_⟩
      rintro ⟨p, _, h1, h2⟩
      rw [h1] at h2; cases h2
    · exact fun h => h.1
  | call s x y rest ok s1 ok1 hrun ih =>
    have hext := visit_extends s x y
    have hext1 := run_extends hrun
    rw [ih]
    constructor
    · rintro ⟨hok, hno⟩
      simp only [Bool.and_eq_true] at hok
      refine ⟨hok.1, ?_⟩
      rintro ⟨p, hm, hr, hr1⟩
      by_cases hr2 : ((visit s x y).1.load p).revealed = true
      · rcases visit_revealed s x y p hr2 with h | ⟨hp, hhid⟩
        · rw [hr] at h; cases h
        · have := (visit_result_false s x y).mpr ⟨hhid, by rw [← hp]; exact hm⟩
          rw [this] at hok
          exact absurd hok.2 (by simp)
      · exact hno ⟨p, by rw [hext.mine]; exact hm, by simpa using hr2, hr1⟩
    · rintro ⟨hok, hno⟩
      have hb : (visit s x y).2.2 = true := by
        by_contra hb
        have hb : (visit s x y).2.2 = false := by simpa using hb
        obtain ⟨hhid, hm⟩ := (visit_result_false s x y).mp hb
        exact hno ⟨_, hm, hhid, hext1.revealed _ (visit_target s x y).1⟩
      refine ⟨by simp [hok, hb], ?_⟩
      rintro ⟨p, hm, hr, hr1⟩
      apply hno
      refine ⟨p, by rw [← hext.mine]; exact hm, ?_, hr1⟩
      by_contra hc
      have hc : (s.load p).revealed = true := by simpa using hc
      rw [hext.revealed p hc] at hr
      cases hr

/-- Every tile a run reveals is the tile some coordinate addresses. -/
theorem run_revealed_addressed {s : State} {l : List (Int × Int)} {ok : Bool} {s1 : State}
    {ok1 : Bool} (h : Run s l ok s1 ok1) (p : TilePtr) (hr : (s.load p).revealed = false)
    (hr1 : (s1.load p).revealed = true) : ∃ x y, p = board_get s.board x y := by
  induction h with
  | done s ok => rw [hr] at hr1; cases hr1
  | call s x y rest ok s1 ok1 hrun ih =>
    by_cases hr2 : ((visit s x y).1.load p).revealed = true
    · rcases visit_revealed s x y p hr2 with h | ⟨hp, _⟩
      · rw [hr] at h; cases h
      · exact ⟨x, y, hp⟩
    · obtain ⟨x1, y1, hp⟩ := ih (by simpa using hr2) hr1
      refine ⟨x1, y1, ?_⟩
      rw [hp, board_get_congr _ _ (visit_extends s x y).cols (visit_extends s x y).rows]

/-! ## The flood fill -/

theorem mem_neighbours (x y x1 y1 : Int) :
    (x1, y1) ∈ neighbours x y ↔ within_one x y x1 y1 := by
  simp only [neighbours, offsets, List.map_cons, List.map_nil, List.mem_cons, Prod.mk.injEq,
    List.mem_nil_iff, or_false, within_one]
  constructor
  · intro h; omega
  · intro h; omega

theorem within_one_offset (x y x1 y1 : Int) (h : within_one x y x1 y1)
    (hne : ¬ (x1 = x ∧ y1 = y)) :
    ∃ d ∈ moore_offsets, x1 = x + d.1 ∧ y1 = y + d.2 := by
  refine ⟨(x1 - x, y1 - y), ?_, by simp, by simp⟩
  obtain ⟨h1, h2, h3, h4⟩ := h
  have hx : x1 - x = -1 ∨ x1 - x = 0 ∨ x1 - x = 1 := by omega
  have hy : y1 - y = -1 ∨ y1 - y = 0 ∨ y1 - y = 1 := by omega
  rcases hx with hx | hx | hx <;> rcases hy with hy | hy | hy <;> rw [hx, hy] <;>
    first | decide | (exfalso; apply hne; constructor <;> omega)

/-- A tile with no adjacent mine has no mine among its in-bounds neighbours. -/
theorem no_mine_of_adjacent_mines_zero (b : Board) (x y x1 y1 : Int)
    (h0 : adjacent_mines b x y = 0) (hw : within_one x y x1 y1) (hne : ¬ (x1 = x ∧ y1 = y))
    (hb : in_bounds b x1 y1) : (b.at x1 y1).mine = false := by
  obtain ⟨d, hd, rfl, rfl⟩ := within_one_offset x y x1 y1 hw hne
  unfold adjacent_mines at h0
  rw [List.countP_eq_zero] at h0
  have := h0 d hd
  simpa [hb] using this

theorem zero_at_congr (b b1 : Board) (hc : b1.cols = b.cols) (hr : b1.rows = b.rows)
    (hn : ∀ i, (b1.tiles i).number = (b.tiles i).number) (x y : Int) :
    zero_at b1 x y ↔ zero_at b x y := by
  simp only [zero_at, in_bounds, Board.at, hc, hr, hn]

theorem zero_reach_congr (b b1 : Board) (hc : b1.cols = b.cols) (hr : b1.rows = b.rows)
    (hn : ∀ i, (b1.tiles i).number = (b.tiles i).number) (x y x1 y1 : Int)
    (h : ZeroReach b x y x1 y1) : ZeroReach b1 x y x1 y1 := by
  induction h with
  | start h0 => exact ZeroReach.start ((zero_at_congr b b1 hc hr hn x y).mpr h0)
  | step x1 y1 x2 y2 _ hw hz ih =>
    exact ZeroReach.step x1 y1 x2 y2 ih hw ((zero_at_congr b b1 hc hr hn x2 y2).mpr hz)

theorem zero_reach_zero (b : Board) (x y x1 y1 : Int) (h : ZeroReach b x y x1 y1) :
    zero_at b x1 y1 := by
  cases h with
  | start h0 => exact h0
  | step _ _ _ _ _ _ hz => exact hz

/-- On a board whose safe tiles carry their adjacent-mine count, no tile of the zero
region of a safe tile is a mine. -/
theorem zero_reach_safe (b : Board)
    (hnum : ∀ x1 y1, in_bounds b x1 y1 → (b.at x1 y1).mine = false →
      (b.at x1 y1).number = (adjacent_mines b x1 y1 : Int))
    (x y : Int) (hm : (b.at x y).mine = false) (x1 y1 : Int) (h : ZeroReach b x y x1 y1) :
    (b.at x1 y1).mine = false := by
  induction h with
  | start _ => exact hm
  | step x1 y1 x2 y2 hreach hw hz ih =>
    by_cases hsame : x2 = x1 ∧ y2 = y1
    · rw [hsame.1, hsame.2]; exact ih
    · have hz1 := zero_reach_zero b x y x1 y1 hreach
      have h0 : adjacent_mines b x1 y1 = 0 := by
        have := hnum x1 y1 hz1.1 ih
        rw [hz1.2] at this
        exact_mod_cast this.symm
      exact no_mine_of_adjacent_mines_zero b x1 y1 x2 y2 h0 hw hsame hz.1

/-- One activation enters the neighbour loop exactly when the addressed tile is
hidden, safe and has number 0. -/
theorem visit_recurse (s : State) (x y : Int) :
    (visit s x y).2.1 = true ↔
      (s.load (board_get s.board x y)).revealed = false ∧
        (s.load (board_get s.board x y)).mine = false ∧
        (s.load (board_get s.board x y)).number = 0 := by
  have h1 : ((unflag s (board_get s.board x y)).load (board_get s.board x y)).revealed
      = (s.load (board_get s.board x y)).revealed := by
    rw [unflag_load]; simp
  have h2 : ((mark (unflag s (board_get s.board x y)) (board_get s.board x y)).load
      (board_get s.board x y)).mine = (s.load (board_get s.board x y)).mine :=
    ((unflag_extends s _).trans (mark_extends _ _)).mine _
  have h3 : ((mark (unflag s (board_get s.board x y)) (board_get s.board x y)).load
      (board_get s.board x y)).number = (s.load (board_get s.board x y)).number :=
    ((unflag_extends s _).trans (mark_extends _ _)).number _
  simp only [visit, h1, h2, h3]
  cases hr : (s.load (board_get s.board x y)).revealed <;>
    cases hm : (s.load (board_get s.board x y)).mine <;> simp
  split_ifs with hz <;> simp [hz]

theorem in_region_congr (s s1 : State) (h : Extends s s1) (x y x1 y1 : Int) :
    in_region s1.board x y x1 y1 ↔ in_region s.board x y x1 y1 := by
  have hn : ∀ i, (s1.board.tiles i).number = (s.board.tiles i).number :=
    fun i => h.number (TilePtr.tiles i)
  constructor
  · rintro ⟨zx, zy, hz, hw⟩
    exact ⟨zx, zy, zero_reach_congr _ _ h.cols.symm h.rows.symm (fun i => (hn i).symm) _ _ _ _ hz,
      hw⟩
  · rintro ⟨zx, zy, hz, hw⟩
    exact ⟨zx, zy, zero_reach_congr _ _ h.cols h.rows hn _ _ _ _ hz, hw⟩

theorem in_bounds_congr (b b1 : Board) (hc : b1.cols = b.cols) (hr : b1.rows = b.rows)
    (x y : Int) : in_bounds b1 x y ↔ in_bounds b x y := by
  simp only [in_bounds, hc, hr]

/-- A pointer to a tile of the grid is the pointer of one coordinate only. -/
theorem board_get_eq_in_bounds (b : Board) (x y x1 y1 : Int) (h1 : in_bounds b x1 y1)
    (he : board_get b x1 y1 = board_get b x y) : x1 = x ∧ y1 = y := by
  by_cases h : in_bounds b x y
  · exact board_get_inj b x1 y1 x y h1 h he
  · rw [board_get_not_in_bounds b x y h] at he
    exact absurd he.symm (board_get_ne_default b x1 y1 h1)

/-- Every tile of the grid a run reveals lies in the region of `(x0, y0)`, as long as
every pending call does and the global `default_tile` is revealed. -/
theorem run_sound {s : State} {l : List (Int × Int)} {ok : Bool} {s1 : State} {ok1 : Bool}
    (h : Run s l ok s1 ok1) (x0 y0 : Int) :
    s.default_tile.revealed = true →
    (∀ c ∈ l, in_bounds s.board c.1 c.2 → in_region s.board x0 y0 c.1 c.2) →
    ∀ x1 y1, in_bounds s.board x1 y1 →
      (s1.load (board_get s.board x1 y1)).revealed = true →
      (s.load (board_get s.board x1 y1)).revealed = true ∨ in_region s.board x0 y0 x1 y1 := by
  induction h with
  | done s ok => intro _ _ x1 y1 _ h; exact Or.inl h
  | call s x y rest ok s1 ok1 hrun ih =>
    intro hd hl x1 y1 hb hr1
    have hext := visit_extends s x y
    have hbg : ∀ a b, board_get (visit s x y).1.board a b = board_get s.board a b :=
      fun a b => board_get_congr _ _ hext.cols hext.rows a b
    have hd2 : (visit s x y).1.default_tile.revealed = true :=
      hext.revealed TilePtr.default_tile hd
    have hl2 : ∀ c ∈ (if (visit s x y).2.1 then neighbours x y else []) ++ rest,
        in_bounds (visit s x y).1.board c.1 c.2 →
        in_region (visit s x y).1.board x0 y0 c.1 c.2 := by
      intro c hc hcb
      rw [in_region_congr s _ hext]
      rw [in_bounds_congr _ _ hext.cols hext.rows] at hcb
      rcases List.mem_append.mp hc with hc | hc
      · by_cases hv : (visit s x y).2.1 = true
        · rw [if_pos hv] at hc
          obtain ⟨hhid, _, hzero⟩ := (visit_recurse s x y).mp hv
          have hxy : in_bounds s.board x y := by
            by_contra hnb
            rw [board_get_not_in_bounds _ _ _ hnb] at hhid
            simp only [State.load] at hhid
            rw [hd] at hhid; cases hhid
          obtain ⟨zx, zy, hz, hw⟩ := hl (x, y) (List.mem_cons_self _ _) hxy
          rw [load_board_get_in_bounds s x y hxy] at hzero
          refine ⟨x, y, ZeroReach.step zx zy x y hz hw ⟨hxy, hzero⟩, ?_⟩
          exact (mem_neighbours x y c.1 c.2).mp hc
        · simp only [hv] at hc
          cases hc
      · exact hl c (List.mem_cons_of_mem _ hc) hcb
    have := ih hd2 hl2 x1 y1 ((in_bounds_congr _ _ hext.cols hext.rows x1 y1).mpr hb)
      (by rw [hbg]; exact hr1)
    rw [hbg, in_region_congr s _ hext] at this
    rcases this with h2 | h2
    · rcases visit_revealed s x y _ h2 with h3 | ⟨hp, _⟩
      · exact Or.inl h3
      · obtain ⟨rfl, rfl⟩ := board_get_eq_in_bounds s.board x y x1 y1 hb hp
        exact Or.inr (hl (x1, y1) (List.mem_cons_self _ _) hb)
    · exact Or.inr h2

/-- A run ends with the grid closed under "a revealed safe zero-number tile has all
its neighbours revealed", if at its start every exception is a pending call. -/
theorem run_closed {s : State} {l : List (Int × Int)} {ok : Bool} {s1 : State} {ok1 : Bool}
    (h : Run s l ok s1 ok1) :
    (∀ x1 y1, in_bounds s.board x1 y1 →
      (s.load (board_get s.board x1 y1)).revealed = true →
      (s.load (board_get s.board x1 y1)).mine = false →
      (s.load (board_get s.board x1 y1)).number = 0 →
      ∀ x2 y2, in_bounds s.board x2 y2 → within_one x1 y1 x2 y2 →
        (s.load (board_get s.board x2 y2)).revealed = true ∨ (x2, y2) ∈ l) →
    ∀ x1 y1, in_bounds s.board x1 y1 →
      (s1.load (board_get s.board x1 y1)).revealed = true →
      (s.load (board_get s.board x1 y1)).mine = false →
      (s.load (board_get s.board x1 y1)).number = 0 →
      ∀ x2 y2, in_bounds s.board x2 y2 → within_one x1 y1 x2 y2 →
        (s1.load (board_get s.board x2 y2)).revealed = true := by
  induction h with
  | done s ok =>
    intro hcl x1 y1 hb hr hm hz x2 y2 hb2 hw
    rcases hcl x1 y1 hb hr hm hz x2 y2 hb2 hw with h | h
    · exact h
    · cases h
  | call s x y rest ok s1 ok1 hrun ih =>
    intro hcl x1 y1 hb hr hm hz x2 y2 hb2 hw
    have hext := visit_extends s x y
    have hbg : ∀ a b, board_get (visit s x y).1.board a b = board_get s.board a b :=
      fun a b => board_get_congr _ _ hext.cols hext.rows a b
    have hib : ∀ a b, in_bounds (visit s x y).1.board a b ↔ in_bounds s.board a b :=
      fun a b => in_bounds_congr _ _ hext.cols hext.rows a b
    have hcl2 : ∀ x1 y1, in_bounds (visit s x y).1.board x1 y1 →
        ((visit s x y).1.load (board_get (visit s x y).1.board x1 y1)).revealed = true →
        ((visit s x y).1.load (board_get (visit s x y).1.board x1 y1)).mine = false →
        ((visit s x y).1.load (board_get (visit s x y).1.board x1 y1)).number = 0 →
        ∀ x2 y2, in_bounds (visit s x y).1.board x2 y2 → within_one x1 y1 x2 y2 →
          ((visit s x y).1.load (board_get (visit s x y).1.board x2 y2)).revealed = true ∨
            (x2, y2) ∈ (if (visit s x y).2.1 then neighbours x y else []) ++ rest := by
      intro a1 b1 hab hra hma hza a2 b2 hab2 hwa
      rw [hib] at hab hab2
      rw [hbg] at hra hma hza ⊢
      rw [hext.mine] at hma
      rw [hext.number] at hza
      rcases visit_revealed s x y _ hra with h3 | ⟨hp, hhid⟩
      · rcases hcl a1 b1 hab h3 hma hza a2 b2 hab2 hwa with h4 | h4
        · exact Or.inl (hext.revealed _ h4)
        · rcases List.mem_cons.mp h4 with h5 | h5
          · left
            have hx : a2 = x := congrArg Prod.fst h5
            have hy : b2 = y := congrArg Prod.snd h5
            rw [hx, hy]
            exact (visit_target s x y).1
          · exact Or.inr (List.mem_append_right _ h5)
      · obtain ⟨rfl, rfl⟩ := board_get_eq_in_bounds s.board x y a1 b1 hab hp
        have hv : (visit s a1 b1).2.1 = true := (visit_recurse s a1 b1).mpr ⟨hhid, hma, hza⟩
        right
        rw [if_pos hv]
        exact List.mem_append_left _ ((mem_neighbours a1 b1 a2 b2).mpr hwa)
    have := ih hcl2 x1 y1 ((hib x1 y1).mpr hb) (by rw [hbg]; exact hr)
      (by rw [hbg, hext.mine]; exact hm) (by rw [hbg, hext.number]; exact hz)
      x2 y2 ((hib x2 y2).mpr hb2) hw
    rw [hbg] at this
    exact this

/-! ## The flag action and the global `default_tile` -/

/-- The flag action changes the `flagged` field of the addressed tile and
`mines_remaining`, nothing else. -/
theorem toggle_flag_load (s : State) (x y : Int) (q : TilePtr) :
    ((toggle_flag s x y).load q).mine = (s.load q).mine ∧
      ((toggle_flag s x y).load q).number = (s.load q).number ∧
      ((toggle_flag s x y).load q).revealed = (s.load q).revealed ∧
      (q ≠ board_get s.board x y → (toggle_flag s x y).load q = s.load q) := by
  simp only [toggle_flag]
  split_ifs with h
  · by_cases hq : q = board_get s.board x y
    · subst hq
      cases hp : board_get s.board x y <;>
        simp [State.load, State.store, Board.setTile]
    · have : ∀ t, ((State.mk (Board.mk (s.store (board_get s.board x y) t).board.tiles
          (s.store (board_get s.board x y) t).board.cols
          (s.store (board_get s.board x y) t).board.rows
          ((s.store (board_get s.board x y) t).board.mines_remaining - 1))
          (s.store (board_get s.board x y) t).default_tile).load q) = s.load q := by
        intro t
        have := load_store_ne s (board_get s.board x y) q t hq
        cases q <;> simpa [State.load] using this
      exact ⟨by rw [this], by rw [this], by rw [this], fun _ => this _⟩
  · exact ⟨rfl, rfl, rfl, fun _ => rfl⟩

/-- One activation of `reveal_tile` writes to the addressed tile only. -/
theorem visit_load_ne (s : State) (x y : Int) (q : TilePtr) (hq : q ≠ board_get s.board x y) :
    (visit s x y).1.load q = s.load q := by
  rcases visit_state s x y with ⟨h, _, _⟩ | ⟨h, _⟩
  · rw [h, unflag_load, if_neg hq]
  · rw [h]; exact mark_unflag_load_ne s _ q hq

/-- A run never writes to a revealed, unflagged global `default_tile`. -/
theorem run_default_tile {s : State} {l : List (Int × Int)} {ok : Bool} {s1 : State}
    {ok1 : Bool} (h : Run s l ok s1 ok1) :
    s.default_tile.revealed = true → s.default_tile.flagged = false →
      s1.default_tile = s.default_tile := by
  induction h with
  | done s ok => intro _ _; rfl
  | call s x y rest ok s1 ok1 _ ih =>
    intro hr hf
    have hv : (visit s x y).1.default_tile = s.default_tile := by
      by_cases hp : TilePtr.default_tile = board_get s.board x y
      · have := visit_of_revealed s x y (by rw [← hp]; exact hf) (by rw [← hp]; exact hr)
        rw [this]
      · exact visit_load_ne s x y TilePtr.default_tile hp
    rw [ih (by rw [hv]; exact hr) (by rw [hv]; exact hf), hv]

theorem toggle_flag_revealed (s : State) (x y : Int)
    (hr : (s.load (board_get s.board x y)).revealed = true) : toggle_flag s x y = s := by
  simp [toggle_flag, hr]

/-! ## Reachable states -/

theorem hidden_count_eq (s : State) (hd : s.default_tile.revealed = true) :
    hidden_count s = hidden_tiles s := by
  simp [hidden_count, hidden_tiles, hd]

/-- The board `create_board` returns has every tile hidden and unflagged, and the
global `default_tile` is as it was. -/
theorem create_board_fresh (dt : Tile) (cols rows mines : Int) (rs : List Nat) (s : State)
    (h : create_board dt cols rows mines rs = some s) :
    s.default_tile = dt ∧
      ∀ i, (s.board.tiles i).revealed = false ∧ (s.board.tiles i).flagged = false := by
  obtain ⟨tiles, hp, hs⟩ := create_board_eq _ _ _ _ _ _ h
  subst hs
  obtain ⟨_, _, hfields, hdt, _⟩ :=
    number_pass_load (State.mk (Board.mk tiles cols rows mines) dt)
  refine ⟨hdt, fun i => ?_⟩
  obtain ⟨_, h2, h3⟩ := hfields (TilePtr.tiles i)
  obtain ⟨_, h5, h6⟩ := place_mines_fields _ _ rs 0 calloc_tiles tiles hp i
  simp only [State.load] at h2 h3
  rw [h2, h3, h5, h6]
  exact ⟨rfl, rfl⟩

/-- Every tile a run reveals is unflagged at the end of the run. -/
theorem run_new_unflagged {s : State} {l : List (Int × Int)} {ok : Bool} {s1 : State}
    {ok1 : Bool} (h : Run s l ok s1 ok1) (p : TilePtr) :
    (s.load p).revealed = false → (s1.load p).revealed = true →
      (s1.load p).flagged = false := by
  induction h with
  | done s ok => intro h1 h2; rw [h1] at h2; cases h2
  | call s x y rest ok s1 ok1 hrun ih =>
    intro h1 h2
    by_cases hr2 : ((visit s x y).1.load p).revealed = true
    · rcases visit_revealed s x y p hr2 with h3 | ⟨hp, _⟩
      · rw [h1] at h3; cases h3
      · rw [hp]
        exact (run_extends hrun).flagged _ (visit_target s x y).2
    · exact ih (by simpa using hr2) h2

/-- In a reachable state the global `default_tile` holds its initial value. -/
theorem reachable_default_tile (s : State) (h : Reachable s) :
    s.default_tile = default_tile_init := by
  induction h with
  | fresh cols rows mines rs s hc => exact (create_board_fresh _ _ _ _ _ _ hc).1
  | reveal s x y _ _ ih =>
    rw [run_default_tile (reveal_tile_run s x y) (by rw [ih]; rfl) (by rw [ih]; rfl), ih]
  | toggle s x y _ hb ih =>
    have := (toggle_flag_load s x y TilePtr.default_tile).2.2.2
      (board_get_ne_default s.board x y hb)
    simp only [State.load] at this
    rw [this, ih]

/-- In a reachable state no tile is both revealed and flagged. -/
theorem reachable_not_revealed_flagged (s : State) (h : Reachable s) :
    ∀ p, (s.load p).revealed = true → (s.load p).flagged = false := by
  induction h with
  | fresh cols rows mines rs s hc =>
    obtain ⟨hdt, hall⟩ := create_board_fresh _ _ _ _ _ _ hc
    intro p hr
    cases p with
    | default_tile => simp only [State.load]; rw [hdt]; rfl
    | tiles i =>
      simp only [State.load] at hr
      rw [(hall i).1] at hr; cases hr
  | reveal s x y _ _ ih =>
    intro p hr
    by_cases h0 : (s.load p).revealed = true
    · exact (reveal_tile_extends s x y).flagged p (ih p h0)
    · exact run_new_unflagged (reveal_tile_run s x y) p (by simpa using h0) hr
  | toggle s x y _ _ ih =>
    intro p hr
    by_cases hrev : (s.load (board_get s.board x y)).revealed = true
    · rw [toggle_flag_revealed s x y hrev] at hr ⊢
      exact ih p hr
    · by_cases hp : p = board_get s.board x y
      · rw [(toggle_flag_load s x y p).2.2.1, hp] at hr
        exact absurd hr hrev
      · rw [(toggle_flag_load s x y p).2.2.2 hp] at hr ⊢
        exact ih p hr

/-! ## Layout, safety and closure -/

theorem extends_layout (s s1 : State) (h : Extends s s1) : SameLayout s.board s1.board :=
  ⟨h.cols, h.rows, fun i => h.mine (TilePtr.tiles i), fun i => h.number (TilePtr.tiles i)⟩

theorem toggle_flag_layout (s : State) (x y : Int) :
    SameLayout s.board (toggle_flag s x y).board :=
  ⟨toggle_flag_cols s x y, toggle_flag_rows s x y,
    fun i => (toggle_flag_load s x y (TilePtr.tiles i)).1,
    fun i => (toggle_flag_load s x y (TilePtr.tiles i)).2.1⟩

theorem SameLayout.in_bounds {b b1 : Board} (h : SameLayout b b1) (x y : Int) :
    in_bounds b1 x y ↔ in_bounds b x y :=
  in_bounds_congr _ _ h.cols h.rows x y

theorem SameLayout.at_mine {b b1 : Board} (h : SameLayout b b1) (x y : Int) :
    (b1.at x y).mine = (b.at x y).mine := by
  simp only [Board.at, h.cols, h.mine]

theorem SameLayout.at_number {b b1 : Board} (h : SameLayout b b1) (x y : Int) :
    (b1.at x y).number = (b.at x y).number := by
  simp only [Board.at, h.cols, h.number]

theorem SameLayout.adjacent_mines {b b1 : Board} (h : SameLayout b b1) (x y : Int) :
    adjacent_mines b1 x y = adjacent_mines b x y :=
  adjacent_mines_congr b b1 h.cols h.rows h.mine x y

theorem SameLayout.safe_numbers {b b1 : Board} (h : SameLayout b b1) (hs : safe_numbers b) :
    safe_numbers b1 := by
  intro x y hb hm
  rw [h.at_number, h.adjacent_mines]
  exact hs x y ((h.in_bounds x y).mp hb) (by rw [← h.at_mine]; exact hm)

theorem SameLayout.all_numbers {b b1 : Board} (h : SameLayout b b1) (hs : all_numbers b) :
    all_numbers b1 := by
  intro x y hb
  rw [h.at_number, h.adjacent_mines]
  exact hs x y ((h.in_bounds x y).mp hb)

theorem load_board_get_at (s s1 : State) (hc : s1.board.cols = s.board.cols) (x y : Int)
    (hb : in_bounds s.board x y) : s1.load (board_get s.board x y) = s1.board.at x y := by
  rw [board_get_in_bounds _ _ _ hb]
  simp only [State.load, Board.at, hc]

/-- On a board whose safe tiles carry their adjacent-mine count, a run whose pending
calls all address safe or already revealed tiles leaves the conjunction as it was. -/
theorem run_safe {s : State} {l : List (Int × Int)} {ok : Bool} {s1 : State} {ok1 : Bool}
    (h : Run s l ok s1 ok1) :
    s.default_tile.revealed = true → safe_numbers s.board →
    (∀ c ∈ l, in_bounds s.board c.1 c.2 →
      (s.board.at c.1 c.2).mine = false ∨ (s.board.at c.1 c.2).revealed = true) →
    ok1 = ok := by
  induction h with
  | done s ok => intro _ _ _; rfl
  | call s x y rest ok s1 ok1 hrun ih =>
    intro hd hnum hl
    have hext := visit_extends s x y
    have hlay := extends_layout s _ hext
    have hbres : (visit s x y).2.2 = true := by
      by_contra hb
      have hb : (visit s x y).2.2 = false := by simpa using hb
      obtain ⟨hhid, hm⟩ := (visit_result_false s x y).mp hb
      by_cases hxy : in_bounds s.board x y
      · rw [load_board_get_in_bounds s x y hxy] at hhid hm
        rcases hl (x, y) (List.mem_cons_self _ _) hxy with h1 | h1
        · rw [hm] at h1; cases h1
        · rw [hhid] at h1; cases h1
      · rw [board_get_not_in_bounds _ _ _ hxy] at hhid
        simp only [State.load] at hhid
        rw [hd] at hhid; cases hhid
    have hl2 : ∀ c ∈ (if (visit s x y).2.1 then neighbours x y else []) ++ rest,
        in_bounds (visit s x y).1.board c.1 c.2 →
        ((visit s x y).1.board.at c.1 c.2).mine = false ∨
          ((visit s x y).1.board.at c.1 c.2).revealed = true := by
      intro c hc hcb
      rw [hlay.in_bounds] at hcb
      rw [hlay.at_mine]
      rcases List.mem_append.mp hc with hc | hc
      · by_cases hv : (visit s x y).2.1 = true
        · rw [if_pos hv] at hc
          obtain ⟨hhid, hm, hzero⟩ := (visit_recurse s x y).mp hv
          have hxy : in_bounds s.board x y := by
            by_contra hnb
            rw [board_get_not_in_bounds _ _ _ hnb] at hhid
            simp only [State.load] at hhid
            rw [hd] at hhid; cases hhid
          rw [load_board_get_in_bounds s x y hxy] at hm hzero
          have h0 : adjacent_mines s.board x y = 0 := by
            have := hnum x y hxy hm
            rw [hzero] at this
            exact_mod_cast this.symm
          have hw := (mem_neighbours x y c.1 c.2).mp hc
          left
          by_cases hsame : c.1 = x ∧ c.2 = y
          · rw [hsame.1, hsame.2]; exact hm
          · exact no_mine_of_adjacent_mines_zero s.board x y c.1 c.2 h0 hw hsame hcb
        · simp only [hv] at hc
          cases hc
      · rcases hl c (List.mem_cons_of_mem _ hc) hcb with h1 | h1
        · exact Or.inl h1
        · right
          rw [← load_board_get_at s _ hext.cols c.1 c.2 hcb]
          apply hext.revealed
          rw [load_board_get_in_bounds s _ _ hcb]
          exact h1
    rw [ih (hext.revealed TilePtr.default_tile hd) (hlay.safe_numbers hnum) hl2, hbres]
    simp

theorem within_one_symm (x y x1 y1 : Int) (h : within_one x y x1 y1) :
    within_one x1 y1 x y := by
  unfold within_one at h ⊢; omega

theorem zero_reach_head (b : Board) (x y x1 y1 x2 y2 : Int) (hz : zero_at b x y)
    (hw : within_one x y x1 y1) (h : ZeroReach b x1 y1 x2 y2) : ZeroReach b x y x2 y2 := by
  induction h with
  | start h0 => exact ZeroReach.step x y x1 y1 (ZeroReach.start hz) hw h0
  | step a1 b1 a2 b2 _ hw2 hz2 ih => exact ZeroReach.step a1 b1 a2 b2 ih hw2 hz2

/-- The zero region of a tile is the zero region of every tile in it. -/
theorem zero_reach_symm (b : Board) (x y x1 y1 : Int) (h : ZeroReach b x y x1 y1) :
    ZeroReach b x1 y1 x y := by
  induction h with
  | start h0 => exact ZeroReach.start h0
  | step a1 b1 a2 b2 _ hw hz ih =>
    exact zero_reach_head b a2 b2 a1 b1 x y hz (within_one_symm _ _ _ _ hw) ih

/-- On a board all of whose tiles carry their adjacent-mine count, a zero-number mine
is alone in its zero region. -/
theorem zero_reach_of_mine (b : Board) (hnum : all_numbers b) (x y : Int)
    (hm : (b.at x y).mine = true) (x1 y1 : Int) (h : ZeroReach b x y x1 y1) :
    x1 = x ∧ y1 = y := by
  induction h with
  | start _ => exact ⟨rfl, rfl⟩
  | step a1 b1 a2 b2 hreach hw hz ih =>
    obtain ⟨rfl, rfl⟩ := ih
    by_contra hne
    have hz0 := zero_reach_zero b a1 b1 a1 b1 hreach
    obtain ⟨d, hd, hx, hy⟩ := within_one_offset a2 b2 a1 b1 (within_one_symm _ _ _ _ hw)
      (fun h => hne ⟨h.1.symm, h.2.symm⟩)
    have hpos := adjacent_mines_pos b a2 b2 d hd (by rw [← hx, ← hy]; exact hz0.1)
      (by rw [← hx, ← hy]; exact hm)
    have := hnum a2 b2 hz.1
    rw [hz.2] at this
    have h0 : adjacent_mines b a2 b2 = 0 := by exact_mod_cast this.symm
    omega

theorem all_numbers_safe (b : Board) (h : all_numbers b) : safe_numbers b :=
  fun x y hb _ => h x y hb

/-- The numbering loops leave every tile of the grid with its adjacent-mine count. -/
theorem create_board_all_numbers (cols rows mines : Int) (rs : List Nat) (s : State)
    (h : create_board default_tile_init cols rows mines rs = some s) : all_numbers s.board := by
  obtain ⟨tiles, hp, hs⟩ := create_board_eq _ _ _ _ _ _ h
  subst hs
  intro x y hb
  have hb0 := (number_pass_in_bounds _ x y).mp hb
  have h0 : (tiles (y * cols + x).toNat).number = 0 :=
    (place_mines_fields _ _ rs 0 calloc_tiles tiles hp _).1
  have hnumber := number_pass_numbers _ rfl x y hb0
  rw [show ((State.mk (Board.mk tiles cols rows mines) default_tile_init).board.at x y).number = 0
    from h0, zero_add] at hnumber
  exact hnumber

theorem create_board_closed (cols rows mines : Int) (rs : List Nat) (s : State)
    (h : create_board default_tile_init cols rows mines rs = some s) : closed s.board := by
  intro x1 y1 _ hr
  have := ((create_board_fresh _ _ _ _ _ _ h).2 (y1 * s.board.cols + x1).toNat).1
  simp only [Board.at] at hr
  rw [this] at hr; cases hr

/-- A `reveal_tile` call on a closed grid leaves the grid closed. -/
theorem reveal_tile_closed (s : State) (x y : Int) (hcl : closed s.board) :
    closed (reveal_tile s x y).1.board := by
  have hrun := reveal_tile_run s x y
  have hext := run_extends hrun
  have hlay := extends_layout s _ hext
  have hcl1 := run_closed hrun (by
    intro a1 b1 hab hra hma hza a2 b2 hab2 hw
    rw [load_board_get_in_bounds s _ _ hab] at hra hma hza
    rw [load_board_get_in_bounds s _ _ hab2]
    exact Or.inl (hcl a1 b1 hab hra hma hza a2 b2 hab2 hw))
  intro x1 y1 hb hr hm hz x2 y2 hb2 hw
  rw [hlay.in_bounds] at hb hb2
  rw [hlay.at_mine] at hm
  rw [hlay.at_number] at hz
  rw [← load_board_get_at s _ hext.cols x2 y2 hb2]
  refine hcl1 x1 y1 hb ?_ ?_ ?_ x2 y2 hb2 hw
  · rw [load_board_get_at s _ hext.cols x1 y1 hb]; exact hr
  · rw [load_board_get_in_bounds s _ _ hb]; exact hm
  · rw [load_board_get_in_bounds s _ _ hb]; exact hz

theorem toggle_flag_closed (s : State) (x y : Int) (hcl : closed s.board) :
    closed (toggle_flag s x y).board := by
  have hlay := toggle_flag_layout s x y
  have hrev : ∀ a b, ((toggle_flag s x y).board.at a b).revealed = (s.board.at a b).revealed := by
    intro a b
    have := (toggle_flag_load s x y (TilePtr.tiles (b * s.board.cols + a).toNat)).2.2.1
    simp only [State.load] at this
    simp only [Board.at, hlay.cols, this]
  intro x1 y1 hb hr hm hz x2 y2 hb2 hw
  rw [hlay.in_bounds] at hb hb2
  rw [hlay.at_mine] at hm
  rw [hlay.at_number] at hz
  rw [hrev] at hr ⊢
  exact hcl x1 y1 hb hr hm hz x2 y2 hb2 hw

theorem reachable_closed (s : State) (h : Reachable s) : closed s.board := by
  induction h with
  | fresh cols rows mines rs s hc => exact create_board_closed _ _ _ _ _ hc
  | reveal s x y _ _ ih => exact reveal_tile_closed s x y ih
  | toggle s x y _ _ ih => exact toggle_flag_closed s x y ih

theorem reachable_all_numbers (s : State) (h : Reachable s) : all_numbers s.board := by
  induction h with
  | fresh cols rows mines rs s hc => exact create_board_all_numbers _ _ _ _ _ hc
  | reveal s x y _ _ ih => exact (extends_layout s _ (reveal_tile_extends s x y)).all_numbers ih
  | toggle s x y _ _ ih => exact (toggle_flag_layout s x y).all_numbers ih

/-- On a closed grid whose safe tiles carry their adjacent-mine count, a revealed safe
zero-number tile has its whole zero region revealed. -/
theorem closed_region_revealed (b : Board) (hcl : closed b) (hnum : safe_numbers b)
    (x y : Int) (hm : (b.at x y).mine = false) (hr : (b.at x y).revealed = true)
    (x1 y1 : Int) (h : ZeroReach b x y x1 y1) : (b.at x1 y1).revealed = true := by
  induction h with
  | start _ => exact hr
  | step a1 b1 a2 b2 hreach hw hz ih =>
    have hz1 := zero_reach_zero b x y a1 b1 hreach
    exact hcl a1 b1 hz1.1 ih (zero_reach_safe b hnum x y hm a1 b1 hreach) hz1.2 a2 b2 hz.1 hw

/-! ## The keyboard loop -/

/-- No branch of the `switch` changes the dimensions of the board or moves the cursor
out of the grid. -/
theorem act_in_bounds (g g1 : Session) (a : Action)
    (hb : in_bounds g.state.board g.curs_x g.curs_y) (h : act g a = some g1) :
    g1.state.board.cols = g.state.board.cols ∧ g1.state.board.rows = g.state.board.rows ∧
      in_bounds g1.state.board g1.curs_x g1.curs_y := by
  obtain ⟨h1, h2, h3, h4⟩ := hb
  cases a with
  | quit => simp [act] at h
  | up =>
    simp only [act, Option.some.injEq] at h
    subst h
    split_ifs <;> refine ⟨rfl, rfl, ?_, ?_, ?_, ?_⟩ <;> (try dsimp only) <;> omega
  | down =>
    simp only [act, Option.some.injEq] at h
    subst h
    split_ifs <;> refine ⟨rfl, rfl, ?_, ?_, ?_, ?_⟩ <;> (try dsimp only) <;> omega
  | left =>
    simp only [act, Option.some.injEq] at h
    subst h
    split_ifs <;> refine ⟨rfl, rfl, ?_, ?_, ?_, ?_⟩ <;> (try dsimp only) <;> omega
  | right =>
    simp only [act, Option.some.injEq] at h
    subst h
    split_ifs <;> refine ⟨rfl, rfl, ?_, ?_, ?_, ?_⟩ <;> (try dsimp only) <;> omega
  | flag =>
    simp only [act, Option.some.injEq] at h
    subst h
    refine ⟨toggle_flag_cols _ _ _, toggle_flag_rows _ _ _, ?_⟩
    unfold in_bounds
    simp only [toggle_flag_cols, toggle_flag_rows]
    exact ⟨h1, h2, h3, h4⟩
  | reveal =>
    simp only [act, Option.some.injEq] at h
    subst h
    have hext := reveal_tile_extends g.state g.curs_x g.curs_y
    refine ⟨hext.cols, hext.rows, ?_⟩
    unfold in_bounds
    simp only [hext.cols, hext.rows]
    exact ⟨h1, h2, h3, h4⟩
  | ignore =>
    simp only [act, Option.some.injEq] at h
    subst h
    exact ⟨rfl, rfl, h1, h2, h3, h4⟩

theorem main_loop_in_bounds (k : Curses) (keys : List Int) :
    ∀ g : Session, in_bounds g.state.board g.curs_x g.curs_y →
      in_bounds (main_loop k g keys).state.board (main_loop k g keys).curs_x
        (main_loop k g keys).curs_y := by
  induction keys with
  | nil => intro g hb; exact hb
  | cons ch rest ih =>
    intro g hb
    simp only [main_loop]
    cases h : act g (decode k ch) with
    | none => exact hb
    | some g1 => exact ih g1 (act_in_bounds g g1 _ hb h).2.2

/-! ## The claims -/

/-- C1: for `cols > 0`, `rows > 0`, `0 < mines <= cols * rows` and every sequence `rs`
of `rand()` results on which the placement loop ends, the board `create_board`
returns has exactly `mines` mine tiles. -/
theorem C1_create_board_mine_count (cols rows mines : Int) (rs : List Nat) (s : State)
    (hc : 0 < cols) (hr : 0 < rows) (hm0 : 0 < mines) (_hm : mines ≤ cols * rows)
    (h : create_board default_tile_init cols rows mines rs = some s) :
    (mine_count s.board : Int) = mines := by
  obtain ⟨tiles, hp, hs⟩ := create_board_eq _ _ _ _ _ _ h
  have hcount := place_mines_count (cols * rows) mines (mul_pos hc hr) rs 0 calloc_tiles tiles
    (by omega) hp
  obtain ⟨hcols, hrows, hfields, _, _⟩ := number_pass_load
    { board := { tiles := tiles, cols := cols, rows := rows, mines_remaining := mines },
      default_tile := default_tile_init }
  have hz : (List.range (cols * rows).toNat).countP (fun j => (calloc_tiles j).mine) = 0 := by
    rw [List.countP_eq_zero]
    intro j _
    simp [calloc_tiles]
  rw [hz] at hcount
  unfold mine_count
  rw [← hs] at hcols hrows hfields
  rw [hcols, hrows]
  have : (List.range (cols * rows).toNat).countP (fun i => (s.board.tiles i).mine)
      = (List.range (cols * rows).toNat).countP (fun j => (tiles j).mine) := by
    apply List.countP_congr
    intro i _
    have := (hfields (TilePtr.tiles i)).1
    simp only [State.load] at this
    rw [this]
  rw [this, hcount]
  simp

/-- C1 on a 4 x 3 board with 2 mines, where `rand()` collides twice with the first
mine before the second one is placed. -/
theorem C1_create_board_mine_count_witness :
    ∃ s, create_board default_tile_init 4 3 2 [0, 0, 12, 11] = some s ∧
      (mine_count s.board : Int) = 2 :=
  ⟨_, rfl, C1_create_board_mine_count 4 3 2 [0, 0, 12, 11] _ (by decide) (by decide) (by decide)
    (by decide) rfl⟩

/-- C2: on every board returned by `create_board`, the number of every in-bounds tile
(mine or not, so in particular of every non-mine tile) is the number of mine tiles
among its in-bounds Moore neighbours, hence lies in 0..8; and on a 3 x 3 board whose
only mine is the centre every other tile has number 1. -/
theorem C2_create_board_numbers (cols rows mines : Int) (rs : List Nat) (s : State)
    (h : create_board default_tile_init cols rows mines rs = some s)
    (x y : Int) (hb : in_bounds s.board x y) :
    (s.board.at x y).number = (adjacent_mines s.board x y : Int) ∧
      0 ≤ (s.board.at x y).number ∧ (s.board.at x y).number ≤ 8 ∧
      (s.board.cols = 3 → s.board.rows = 3 →
        (∀ x1 y1, in_bounds s.board x1 y1 →
          ((s.board.at x1 y1).mine = true ↔ (x1 = 1 ∧ y1 = 1))) →
        ¬ (x = 1 ∧ y = 1) → (s.board.at x y).number = 1) := by
  obtain ⟨tiles, hp, hs⟩ := create_board_eq _ _ _ _ _ _ h
  subst hs
  have hb0 := (number_pass_in_bounds _ x y).mp hb
  have h0 : (tiles (y * cols + x).toNat).number = 0 :=
    (place_mines_fields _ _ rs 0 calloc_tiles tiles hp _).1
  have hnumber := number_pass_numbers _ rfl x y hb0
  rw [show ((State.mk (Board.mk tiles cols rows mines) default_tile_init).board.at x y).number = 0
    from h0, zero_add] at hnumber
  have hle := adjacent_mines_le
    (number_pass (State.mk (Board.mk tiles cols rows mines) default_tile_init)).board x y
  refine ⟨hnumber, by rw [hnumber]; exact_mod_cast Nat.zero_le _,
    by rw [hnumber]; exact_mod_cast hle, ?_⟩
  intro h3c h3r honly hne
  rw [hnumber, adjacent_mines_centre _ h3c h3r honly x y hb hne]
  rfl

/-- C2 on the 3 x 3 board with its one mine in the centre, at the corner `(0, 0)`. -/
theorem C2_create_board_numbers_witness :
    ∃ s, create_board default_tile_init 3 3 1 [4] = some s ∧ in_bounds s.board 0 0 ∧
      (s.board.at 1 1).mine = true ∧ (s.board.at 0 0).number = 1 ∧
      ((s.board.at 0 0).number = (adjacent_mines s.board 0 0 : Int) ∧
        0 ≤ (s.board.at 0 0).number ∧ (s.board.at 0 0).number ≤ 8 ∧
        (s.board.cols = 3 → s.board.rows = 3 →
          (∀ x1 y1, in_bounds s.board x1 y1 →
            ((s.board.at x1 y1).mine = true ↔ (x1 = 1 ∧ y1 = 1))) →
          ¬ ((0 : Int) = 1 ∧ (0 : Int) = 1) → (s.board.at 0 0).number = 1)) :=
  ⟨_, rfl, by decide, by decide, by decide,
    C2_create_board_numbers 3 3 1 [4] _ rfl 0 0 (by decide)⟩

/-- C3: with the global `default_tile` revealed (as it is initialised and as it stays),
on every state, whatever its numbers, and for every `(x, y)`, in or out of bounds,
`reveal_tile` returns `false` if and only if the call turned at least one mine tile of
the grid from not revealed to revealed: a mine uncovered anywhere in the recursion
reaches the caller. -/
theorem C3_reveal_false_iff_mine_revealed (s : State) (x y : Int)
    (hd : s.default_tile.revealed = true) :
    (reveal_tile s x y).2 = false ↔
      ∃ x1 y1, in_bounds s.board x1 y1 ∧ (s.board.at x1 y1).mine = true ∧
        (s.board.at x1 y1).revealed = false ∧
        ((reveal_tile s x y).1.board.at x1 y1).revealed = true := by
  have hrun := reveal_tile_run s x y
  have hres := run_result hrun
  have hext := run_extends hrun
  have hat : ∀ x1 y1, in_bounds s.board x1 y1 →
      (reveal_tile s x y).1.load (board_get s.board x1 y1)
        = (reveal_tile s x y).1.board.at x1 y1 := by
    intro x1 y1 hb
    rw [board_get_in_bounds _ _ _ hb]
    simp only [State.load, Board.at, hext.cols]
  constructor
  · intro hfalse
    have : ¬ (reveal_tile s x y).2 = true := by rw [hfalse]; simp
    rw [hres] at this
    simp only [true_and, not_not] at this
    obtain ⟨p, hm, hr, hr1⟩ := this
    obtain ⟨x1, y1, hp⟩ := run_revealed_addressed hrun p hr hr1
    have hb : in_bounds s.board x1 y1 := by
      by_contra hb
      rw [board_get_not_in_bounds _ _ _ hb] at hp
      rw [hp] at hr
      simp only [State.load] at hr
      rw [hd] at hr; cases hr
    subst hp
    rw [load_board_get_in_bounds s x1 y1 hb] at hm hr
    rw [hat x1 y1 hb] at hr1
    exact ⟨x1, y1, hb, hm, hr, hr1⟩
  · rintro ⟨x1, y1, hb, hm, hr, hr1⟩
    by_contra hne
    have htrue : (reveal_tile s x y).2 = true := by simpa using hne
    rw [hres] at htrue
    apply htrue.2
    refine ⟨board_get s.board x1 y1, ?_, ?_, ?_⟩
    · rw [load_board_get_in_bounds s x1 y1 hb]; exact hm
    · rw [load_board_get_in_bounds s x1 y1 hb]; exact hr
    · rw [hat x1 y1 hb]; exact hr1

/-- C3 at the hidden mine of `two_tile_state`. -/
theorem C3_reveal_false_iff_mine_revealed_witness :
    two_tile_state.default_tile.revealed = true ∧
      ((reveal_tile two_tile_state 0 0).2 = false ↔
        ∃ x1 y1, in_bounds two_tile_state.board x1 y1 ∧
          (two_tile_state.board.at x1 y1).mine = true ∧
          (two_tile_state.board.at x1 y1).revealed = false ∧
          ((reveal_tile two_tile_state 0 0).1.board.at x1 y1).revealed = true) :=
  ⟨by decide, C3_reveal_false_iff_mine_revealed two_tile_state 0 0 (by decide)⟩

/-- C4: take a state whose safe tiles carry their adjacent-mine count, in which every
revealed safe zero-number tile has all its in-bounds neighbours revealed, and whose
global `default_tile` is revealed.  Let `(x, y)` be an in-bounds hidden safe tile with
number 0.  After `reveal_tile(board, x, y)` a tile of the grid is revealed if and only if
it was revealed before or it is a tile of the zero region of `(x, y)` or a Moore
neighbour of one. -/
theorem C4_flood_fill_region (s : State) (x y : Int)
    (hd : s.default_tile.revealed = true)
    (hnum : ∀ x1 y1, in_bounds s.board x1 y1 → (s.board.at x1 y1).mine = false →
      (s.board.at x1 y1).number = (adjacent_mines s.board x1 y1 : Int))
    (hclosed : ∀ x1 y1, in_bounds s.board x1 y1 → (s.board.at x1 y1).revealed = true →
      (s.board.at x1 y1).mine = false → (s.board.at x1 y1).number = 0 →
      ∀ x2 y2, in_bounds s.board x2 y2 → within_one x1 y1 x2 y2 →
        (s.board.at x2 y2).revealed = true)
    (hb : in_bounds s.board x y) (_hr : (s.board.at x y).revealed = false)
    (hm : (s.board.at x y).mine = false) (hz : (s.board.at x y).number = 0) :
    ∀ x1 y1, in_bounds s.board x1 y1 →
      (((reveal_tile s x y).1.board.at x1 y1).revealed = true ↔
        ((s.board.at x1 y1).revealed = true ∨
          ∃ zx zy, ZeroReach s.board x y zx zy ∧ within_one zx zy x1 y1)) := by
  have hrun := reveal_tile_run s x y
  have hext := run_extends hrun
  have hat : ∀ a b, in_bounds s.board a b →
      (reveal_tile s x y).1.load (board_get s.board a b) = (reveal_tile s x y).1.board.at a b := by
    intro a b hab
    rw [board_get_in_bounds _ _ _ hab]
    simp only [State.load, Board.at, hext.cols]
  have hstart : ZeroReach s.board x y x y := ZeroReach.start ⟨hb, hz⟩
  have hself : ∀ a b : Int, within_one a b a b := by
    intro a b; unfold within_one; omega
  -- the grid is closed after the call
  have hcl := run_closed hrun (by
    intro a1 b1 hab hra hma hza a2 b2 hab2 hw
    rw [load_board_get_in_bounds s _ _ hab] at hra hma hza
    rw [load_board_get_in_bounds s _ _ hab2]
    exact Or.inl (hclosed a1 b1 hab hra hma hza a2 b2 hab2 hw))
  -- every tile of the zero region is revealed after the call
  have hzone : ∀ zx zy, ZeroReach s.board x y zx zy →
      ((reveal_tile s x y).1.load (board_get s.board zx zy)).revealed = true := by
    intro zx zy hreach
    induction hreach with
    | start _ => exact (reveal_tile_target s x y).1
    | step a1 b1 a2 b2 hr1 hw hz2 ih =>
      have hz1 := zero_reach_zero s.board x y a1 b1 hr1
      have hsafe := zero_reach_safe s.board hnum x y hm a1 b1 hr1
      exact hcl a1 b1 hz1.1 ih (by rw [load_board_get_in_bounds s _ _ hz1.1]; exact hsafe)
        (by rw [load_board_get_in_bounds s _ _ hz1.1]; exact hz1.2) a2 b2 hz2.1 hw
  intro x1 y1 hb1
  rw [← hat x1 y1 hb1, ← load_board_get_in_bounds s x1 y1 hb1]
  constructor
  · intro hrev
    refine run_sound hrun x y hd ?_ x1 y1 hb1 hrev
    intro c hc _
    rw [List.mem_singleton.mp hc]
    exact ⟨x, y, hstart, hself x y⟩
  · rintro (hrev | ⟨zx, zy, hreach, hw⟩)
    · exact hext.revealed _ hrev
    · have hz1 := zero_reach_zero s.board x y zx zy hreach
      have hsafe := zero_reach_safe s.board hnum x y hm zx zy hreach
      exact hcl zx zy hz1.1 (hzone zx zy hreach)
        (by rw [load_board_get_in_bounds s _ _ hz1.1]; exact hsafe)
        (by rw [load_board_get_in_bounds s _ _ hz1.1]; exact hz1.2) x1 y1 hb1 hw

/-- C4 at the zero-number tile `(0, 0)` of `three_tile_state`: the call reveals
`(0, 0)` and its neighbour `(1, 0)`, and not the mine at `(2, 0)`. -/
theorem C4_flood_fill_region_witness :
    (in_bounds three_tile_state.board 0 0 ∧
      ((reveal_tile three_tile_state 0 0).1.board.at 0 0).revealed = true ∧
      ((reveal_tile three_tile_state 0 0).1.board.at 1 0).revealed = true ∧
      ((reveal_tile three_tile_state 0 0).1.board.at 2 0).revealed = false) ∧
      ∀ x1 y1, in_bounds three_tile_state.board x1 y1 →
        (((reveal_tile three_tile_state 0 0).1.board.at x1 y1).revealed = true ↔
          ((three_tile_state.board.at x1 y1).revealed = true ∨
            ∃ zx zy, ZeroReach three_tile_state.board 0 0 zx zy ∧ within_one zx zy x1 y1)) :=
  ⟨⟨by decide, by decide, by decide, by decide⟩,
    C4_flood_fill_region three_tile_state 0 0 (by decide)
      (by
        intro x1 y1 h1 _
        obtain ⟨a1, a2, a3, a4⟩ := h1
        have a2 : x1 < 3 := a2
        have a4 : y1 < 1 := a4
        interval_cases x1 <;> interval_cases y1 <;> decide)
      (by
        intro x1 y1 h1 hrev
        obtain ⟨a1, a2, a3, a4⟩ := h1
        have a2 : x1 < 3 := a2
        have a4 : y1 < 1 := a4
        interval_cases x1 <;> interval_cases y1 <;> exact absurd hrev (by decide))
      (by decide) (by decide) (by decide) (by decide)⟩

/-- C5: revealing an in-bounds hidden mine returns `false`, leaves that tile revealed,
and leaves every other tile of the grid, and the global `default_tile`, exactly as
they were (all four fields): no recursion starts from a mine, whatever its number. -/
theorem C5_reveal_hidden_mine (s : State) (x y : Int) (hb : in_bounds s.board x y)
    (hm : (s.load (board_get s.board x y)).mine = true)
    (hr : (s.load (board_get s.board x y)).revealed = false) :
    (reveal_tile s x y).2 = false ∧
      ((reveal_tile s x y).1.load (board_get s.board x y)).revealed = true ∧
      (∀ x1 y1, in_bounds s.board x1 y1 → (x1, y1) ≠ (x, y) →
        (reveal_tile s x y).1.load (board_get s.board x1 y1)
          = s.load (board_get s.board x1 y1)) ∧
      (reveal_tile s x y).1.default_tile = s.default_tile := by
  have hv := visit_single s x y hr (Or.inl hm)
  have hrt := reveal_tile_no_loop s x y (by rw [hv])
  rw [hv] at hrt
  rw [hrt]
  refine ⟨by simp [hm], ?_, ?_, ?_⟩
  · simp only [mark_load]; simp
  · intro x1 y1 h1 hne
    exact mark_unflag_load_ne s _ _ (board_get_ne s.board x y x1 y1 hb h1 hne)
  · exact mark_unflag_load_ne s _ TilePtr.default_tile (board_get_ne_default s.board x y hb)

/-- C5 at the hidden mine of `two_tile_state`. -/
theorem C5_reveal_hidden_mine_witness :
    in_bounds two_tile_state.board 0 0 ∧
      (reveal_tile two_tile_state 0 0).2 = false ∧
      ((reveal_tile two_tile_state 0 0).1.load (board_get two_tile_state.board 0 0)).revealed
        = true ∧
      (∀ x1 y1, in_bounds two_tile_state.board x1 y1 → (x1, y1) ≠ (0, 0) →
        (reveal_tile two_tile_state 0 0).1.load (board_get two_tile_state.board x1 y1)
          = two_tile_state.load (board_get two_tile_state.board x1 y1)) ∧
      (reveal_tile two_tile_state 0 0).1.default_tile = two_tile_state.default_tile :=
  ⟨by decide, C5_reveal_hidden_mine two_tile_state 0 0 (by decide) (by decide) (by decide)⟩

/-- C6: revealing an in-bounds hidden safe tile with a positive number returns `true`,
leaves that tile revealed and leaves every other tile of the grid, and the global
`default_tile`, exactly as they were.  In particular this is so for the one safe tile
of a grid of more than one tile on which every other tile is a mine, when its number
is its count of adjacent mines (second alternative of `hn`; a corner is a special
case). -/
theorem C6_reveal_numbered_tile (s : State) (x y : Int) (hb : in_bounds s.board x y)
    (hr : (s.load (board_get s.board x y)).revealed = false)
    (hm : (s.load (board_get s.board x y)).mine = false)
    (hn : 0 < (s.load (board_get s.board x y)).number ∨
      ((s.load (board_get s.board x y)).number = (adjacent_mines s.board x y : Int) ∧
        (∀ x1 y1, in_bounds s.board x1 y1 → (x1, y1) ≠ (x, y) → (s.board.at x1 y1).mine = true) ∧
        (1 < s.board.cols ∨ 1 < s.board.rows))) :
    (reveal_tile s x y).2 = true ∧
      ((reveal_tile s x y).1.load (board_get s.board x y)).revealed = true ∧
      (∀ x1 y1, in_bounds s.board x1 y1 → (x1, y1) ≠ (x, y) →
        (reveal_tile s x y).1.load (board_get s.board x1 y1)
          = s.load (board_get s.board x1 y1)) ∧
      (reveal_tile s x y).1.default_tile = s.default_tile := by
  have hpos : 0 < (s.load (board_get s.board x y)).number := by
    rcases hn with hn | ⟨hnum, hall, hsize⟩
    · exact hn
    · rw [hnum]
      exact_mod_cast adjacent_mines_pos_of_all_mines s.board x y hb hall hsize
  have hv := visit_single s x y hr (Or.inr (by omega))
  have hrt := reveal_tile_no_loop s x y (by rw [hv])
  rw [hv] at hrt
  rw [hrt]
  refine ⟨by simp [hm], ?_, ?_, ?_⟩
  · simp only [mark_load]; simp
  · intro x1 y1 h1 hne
    exact mark_unflag_load_ne s _ _ (board_get_ne s.board x y x1 y1 hb h1 hne)
  · exact mark_unflag_load_ne s _ TilePtr.default_tile (board_get_ne_default s.board x y hb)

/-- C6 at the safe tile of `two_tile_state`, whose only fellow tile is a mine. -/
theorem C6_reveal_numbered_tile_witness :
    (in_bounds two_tile_state.board 1 0 ∧
      (two_tile_state.load (board_get two_tile_state.board 1 0)).number
        = (adjacent_mines two_tile_state.board 1 0 : Int)) ∧
      (reveal_tile two_tile_state 1 0).2 = true ∧
      ((reveal_tile two_tile_state 1 0).1.load (board_get two_tile_state.board 1 0)).revealed
        = true ∧
      (∀ x1 y1, in_bounds two_tile_state.board x1 y1 → (x1, y1) ≠ (1, 0) →
        (reveal_tile two_tile_state 1 0).1.load (board_get two_tile_state.board x1 y1)
          = two_tile_state.load (board_get two_tile_state.board x1 y1)) ∧
      (reveal_tile two_tile_state 1 0).1.default_tile = two_tile_state.default_tile :=
  ⟨⟨by decide, by decide⟩,
    C6_reveal_numbered_tile two_tile_state 1 0 (by decide) (by decide) (by decide)
      (Or.inr ⟨by decide, by
        intro x1 y1 h1 hne
        obtain ⟨a1, a2, a3, a4⟩ := h1
        have hx : x1 = 0 := by
          by_contra hx
          apply hne
          have h2 : x1 < 2 := a2
          have h3 : y1 < 1 := a4
          have : x1 = 1 := by omega
          have : y1 = 0 := by omega
          simp [*]
        have hy : y1 = 0 := by
          have h3 : y1 < 1 := a4
          omega
        subst hx; subst hy
        decide, Or.inl (by decide)⟩)⟩

/-- C7: `reveal_tile` is idempotent on the state: a second call at the same
coordinate leaves the state (every tile, `mines_remaining`, the global
`default_tile`) as the first call left it. -/
theorem C7_reveal_idempotent_state (s : State) (x y : Int) :
    (reveal_tile (reveal_tile s x y).1 x y).1 = (reveal_tile s x y).1 := by
  have hext := reveal_tile_extends s x y
  obtain ⟨h1, h2⟩ := reveal_tile_target s x y
  rw [← board_get_congr _ _ hext.cols hext.rows] at h1 h2
  have hv := visit_of_revealed _ x y h2 h1
  rw [reveal_tile_no_loop _ x y (by rw [hv]), hv]

/-- C8 as stated fails: on the 1 x 1 board made by `create_board(1, 1, 1)` the first
`reveal_tile(board, 0, 0)` returns `false` and the second returns `true`. -/
theorem C8_counterexample :
    ∃ s, create_board default_tile_init 1 1 1 [0] = some s ∧
      (reveal_tile s 0 0).2 = false ∧ (reveal_tile (reveal_tile s 0 0).1 0 0).2 = true :=
  ⟨_, rfl, by decide, by decide⟩

/-- C8, amended: a second call at the same coordinate always returns `true`; so it
returns what the first call returned exactly when the first call returned `true`. -/
theorem C8_second_reveal_returns_true (s : State) (x y : Int) :
    (reveal_tile (reveal_tile s x y).1 x y).2 = true ∧
      ((reveal_tile (reveal_tile s x y).1 x y).2 = (reveal_tile s x y).2 ↔
        (reveal_tile s x y).2 = true) := by
  have hext := reveal_tile_extends s x y
  obtain ⟨h1, h2⟩ := reveal_tile_target s x y
  rw [← board_get_congr _ _ hext.cols hext.rows] at h1 h2
  have hv := visit_of_revealed _ x y h2 h1
  have : (reveal_tile (reveal_tile s x y).1 x y).2 = true := by
    rw [reveal_tile_no_loop _ x y (by rw [hv]), hv]
  rw [this]
  exact ⟨rfl, eq_comm⟩

/-- C9: on an in-bounds hidden unflagged tile, placing a flag and then revealing
gives the same return value and the same final state (every tile and
`mines_remaining`) as revealing at once; the tile ends unflagged. -/
theorem C9_flag_then_reveal (s : State) (x y : Int) (_hb : in_bounds s.board x y)
    (hr : (s.load (board_get s.board x y)).revealed = false)
    (hf : (s.load (board_get s.board x y)).flagged = false) :
    reveal_tile (toggle_flag s x y) x y = reveal_tile s x y ∧
      ((reveal_tile (toggle_flag s x y) x y).1.load (board_get s.board x y)).flagged = false ∧
      (reveal_tile (toggle_flag s x y) x y).1.board.mines_remaining
        = (reveal_tile s x y).1.board.mines_remaining := by
  have hg : board_get (toggle_flag s x y).board x y = board_get s.board x y :=
    board_get_congr _ _ (toggle_flag_cols s x y) (toggle_flag_rows s x y) x y
  have hv : visit (toggle_flag s x y) x y = visit s x y := by
    simp only [visit, hg, unflag_toggle_flag s x y hr hf, unflag_of_not_flagged s _ hf]
  have heq : reveal_tile (toggle_flag s x y) x y = reveal_tile s x y := by
    have hd : reveal_depth (toggle_flag s x y) = reveal_depth s := by
      simp [reveal_depth, toggle_flag_cols, toggle_flag_rows]
    have e1 := reveal_tile_fuel_eq (toggle_flag s x y) x y (reveal_depth s) (le_of_eq hd)
    have e2 := reveal_tile_fuel_eq s x y (reveal_depth s) (le_refl _)
    unfold reveal_depth at e1 e2
    rw [reveal_tile_fuel_succ] at e1 e2
    rw [hv, e2] at e1
    exact (Option.some.inj e1).symm
  refine ⟨heq, ?_, by rw [heq]⟩
  rw [heq]
  exact (reveal_tile_target s x y).2

/-- C9 at the safe tile of `two_tile_state`. -/
theorem C9_flag_then_reveal_witness :
    in_bounds two_tile_state.board 1 0 ∧
      reveal_tile (toggle_flag two_tile_state 1 0) 1 0 = reveal_tile two_tile_state 1 0 ∧
      ((reveal_tile (toggle_flag two_tile_state 1 0) 1 0).1.load
        (board_get two_tile_state.board 1 0)).flagged = false ∧
      (reveal_tile (toggle_flag two_tile_state 1 0) 1 0).1.board.mines_remaining
        = (reveal_tile two_tile_state 1 0).1.board.mines_remaining :=
  ⟨by decide, C9_flag_then_reveal two_tile_state 1 0 (by decide) (by decide) (by decide)⟩

/-- C10, the code at the failing input: on the board made by `create_board(1, 1, 1)`
the first flag action places a flag and takes `mines_remaining` from 1 to 0; the
second removes the flag and takes `mines_remaining` to -1 instead of back to 1. -/
theorem C10_unflag_decrements :
    ∃ s, create_board default_tile_init 1 1 1 [0] = some s ∧
      s.board.mines_remaining = 1 ∧
      ((toggle_flag s 0 0).load (board_get s.board 0 0)).flagged = true ∧
      (toggle_flag s 0 0).board.mines_remaining = 0 ∧
      ((toggle_flag (toggle_flag s 0 0) 0 0).load (board_get s.board 0 0)).flagged = false ∧
      (toggle_flag (toggle_flag s 0 0) 0 0).board.mines_remaining = -1 :=
  ⟨_, rfl, by decide, by decide, by decide, by decide, by decide⟩

/-- C11: the flag action at a revealed tile changes nothing: the state after it (every
tile, `mines_remaining`, the global `default_tile`) is the state before it. -/
theorem C11_toggle_revealed_noop (s : State) (x y : Int)
    (hr : (s.load (board_get s.board x y)).revealed = true) :
    toggle_flag s x y = s := by
  simp [toggle_flag, hr]

/-- C11 at the tile `(1, 0)` of `two_tile_state` after it has been revealed. -/
theorem C11_toggle_revealed_noop_witness :
    ((reveal_tile two_tile_state 1 0).1.load
        (board_get (reveal_tile two_tile_state 1 0).1.board 1 0)).revealed = true ∧
      toggle_flag (reveal_tile two_tile_state 1 0).1 1 0 = (reveal_tile two_tile_state 1 0).1 :=
  ⟨by decide, C11_toggle_revealed_noop (reveal_tile two_tile_state 1 0).1 1 0 (by decide)⟩

/-- C12: with the global `default_tile` holding its initial value, `reveal_tile` at a
coordinate outside the grid returns `true` and leaves the whole state (every tile,
`mines_remaining`, `default_tile`) as it was; and after a call at any coordinate
`default_tile` still holds its initial value. -/
theorem C12_reveal_out_of_bounds (s : State) (x y : Int)
    (hd : s.default_tile = default_tile_init) :
    ((x < 0 ∨ s.board.cols ≤ x ∨ y < 0 ∨ s.board.rows ≤ y) → reveal_tile s x y = (s, true)) ∧
      (reveal_tile s x y).1.default_tile = default_tile_init := by
  have hr : s.default_tile.revealed = true := by rw [hd]; rfl
  have hf : s.default_tile.flagged = false := by rw [hd]; rfl
  refine ⟨?_, ?_⟩
  · intro hout
    have hnb : ¬ in_bounds s.board x y := by
      unfold in_bounds; omega
    have hp := board_get_not_in_bounds s.board x y hnb
    have hv := visit_of_revealed s x y (by rw [hp]; exact hf) (by rw [hp]; exact hr)
    rw [reveal_tile_no_loop s x y (by rw [hv]), hv]
  · rw [run_default_tile (reveal_tile_run s x y) hr hf, hd]

/-- C12 on `two_tile_state`, left of the grid. -/
theorem C12_reveal_out_of_bounds_witness :
    two_tile_state.default_tile = default_tile_init ∧
      ((((-1 : Int) < 0 ∨ two_tile_state.board.cols ≤ -1 ∨ (0 : Int) < 0 ∨
          two_tile_state.board.rows ≤ 0) →
        reveal_tile two_tile_state (-1) 0 = (two_tile_state, true)) ∧
      (reveal_tile two_tile_state (-1) 0).1.default_tile = default_tile_init) :=
  ⟨rfl, C12_reveal_out_of_bounds two_tile_state (-1) 0 rfl⟩

/-- C13: `board_get` returns the pointer to the global `default_tile` exactly when `x`
is outside `[0, cols)` or `y` is outside `[0, rows)`; otherwise it returns the pointer
to the tile at offset `y * cols + x`, which lies in `[0, cols * rows)`; and two distinct
in-bounds coordinates get two distinct pointers. -/
theorem C13_board_get (b : Board) (x y : Int) :
    (board_get b x y = TilePtr.default_tile ↔ (x < 0 ∨ b.cols ≤ x ∨ y < 0 ∨ b.rows ≤ y)) ∧
      (in_bounds b x y →
        board_get b x y = TilePtr.tiles (y * b.cols + x).toNat ∧
          0 ≤ y * b.cols + x ∧ y * b.cols + x < b.cols * b.rows) ∧
      (∀ x1 y1, in_bounds b x y → in_bounds b x1 y1 → (x1, y1) ≠ (x, y) →
        board_get b x1 y1 ≠ board_get b x y) := by
  refine ⟨?_, ?_, ?_⟩
  · constructor
    · intro h
      by_contra hc
      have hb : in_bounds b x y := by unfold in_bounds; omega
      exact board_get_ne_default b x y hb h.symm
    · intro h
      exact board_get_not_in_bounds b x y (by unfold in_bounds; omega)
  · intro hb
    refine ⟨board_get_in_bounds b x y hb, ?_, ?_⟩
    · exact add_nonneg (mul_nonneg hb.2.2.1 (by have := hb.1; have := hb.2.1; omega)) hb.1
    · have := offset_lt b x y hb
      omega
  · intro x1 y1 hb hb1 hne
    exact board_get_ne b x y x1 y1 hb hb1 hne

/-- C14: in every state reachable from a freshly created board by `reveal_tile` calls
and flag actions at in-bounds positions, no tile (of the block or the global
`default_tile`) is both revealed and flagged; and after a `reveal_tile` call on any
state whatever, every tile the call revealed is unflagged. -/
theorem C14_never_revealed_and_flagged (s : State) (h : Reachable s) :
    (∀ p, ¬ ((s.load p).revealed = true ∧ (s.load p).flagged = true)) ∧
      (∀ (s0 : State) (x y : Int) (p : TilePtr), (s0.load p).revealed = false →
        ((reveal_tile s0 x y).1.load p).revealed = true →
        ((reveal_tile s0 x y).1.load p).flagged = false) := by
  refine ⟨?_, ?_⟩
  · rintro p ⟨hr, hf⟩
    rw [reachable_not_revealed_flagged s h p hr] at hf
    cases hf
  · intro s0 x y p h0 h1
    exact run_new_unflagged (reveal_tile_run s0 x y) p h0 h1

/-- C14 on the 2 x 1 board of `create_board(2, 1, 1)` after flagging `(1, 0)` and then
revealing it. -/
theorem C14_never_revealed_and_flagged_witness :
    ∃ s, create_board default_tile_init 2 1 1 [0] = some s ∧
      ((∀ p, ¬ (((reveal_tile (toggle_flag s 1 0) 1 0).1.load p).revealed = true ∧
          ((reveal_tile (toggle_flag s 1 0) 1 0).1.load p).flagged = true)) ∧
        (∀ (s0 : State) (x y : Int) (p : TilePtr), (s0.load p).revealed = false →
          ((reveal_tile s0 x y).1.load p).revealed = true →
          ((reveal_tile s0 x y).1.load p).flagged = false)) :=
  ⟨_, rfl, C14_never_revealed_and_flagged _
    (Reachable.reveal _ 1 0
      (Reachable.toggle _ 1 0 (Reachable.fresh 2 1 1 [0] _ rfl) (by decide)) (by decide))⟩

/-- C15: neither `reveal_tile` nor the flag action changes `cols`, `rows`, or the
`mine` or `number` field of any tile (of the block or the global `default_tile`), and
neither turns a `revealed` field from `true` to `false`. -/
theorem C15_fields_preserved (s : State) (x y : Int) :
    ((reveal_tile s x y).1.board.cols = s.board.cols ∧
      (reveal_tile s x y).1.board.rows = s.board.rows ∧
      ∀ p, ((reveal_tile s x y).1.load p).mine = (s.load p).mine ∧
        ((reveal_tile s x y).1.load p).number = (s.load p).number ∧
        ((s.load p).revealed = true → ((reveal_tile s x y).1.load p).revealed = true)) ∧
    ((toggle_flag s x y).board.cols = s.board.cols ∧
      (toggle_flag s x y).board.rows = s.board.rows ∧
      ∀ p, ((toggle_flag s x y).load p).mine = (s.load p).mine ∧
        ((toggle_flag s x y).load p).number = (s.load p).number ∧
        ((s.load p).revealed = true → ((toggle_flag s x y).load p).revealed = true)) := by
  have hext := reveal_tile_extends s x y
  refine ⟨⟨hext.cols, hext.rows, fun p => ⟨hext.mine p, hext.number p, hext.revealed p⟩⟩,
    ⟨toggle_flag_cols s x y, toggle_flag_rows s x y, fun p => ?_⟩⟩
  obtain ⟨h1, h2, h3, _⟩ := toggle_flag_load s x y p
  exact ⟨h1, h2, fun h => by rw [h3]; exact h⟩

/-- C16: with the global `default_tile` revealed, `reveal_tile` returns on every state
and for every `(x, y)`, in or out of bounds: a recursion depth of `cols * rows + 1` is
never exceeded, because a call that enters its neighbour loop has first lowered the
number of hidden tiles of the grid, and no call raises it. -/
theorem C16_reveal_terminates (s : State) (x y : Int) (_hc : 0 < s.board.cols)
    (_hr : 0 < s.board.rows) (hd : s.default_tile.revealed = true) :
    (∀ fuel, (s.board.cols * s.board.rows).toNat + 1 ≤ fuel →
        reveal_tile_fuel fuel s x y = some (reveal_tile s x y)) ∧
      ((visit s x y).2.1 = true → hidden_tiles (visit s x y).1 < hidden_tiles s) ∧
      hidden_tiles (visit s x y).1 ≤ hidden_tiles s ∧
      hidden_tiles (reveal_tile s x y).1 ≤ hidden_tiles s ∧
      hidden_tiles s ≤ (s.board.cols * s.board.rows).toNat := by
  have hle : hidden_tiles s ≤ (s.board.cols * s.board.rows).toNat := by
    unfold hidden_tiles
    have := List.countP_le_length (fun i => !(s.board.tiles i).revealed)
      (l := List.range (s.board.cols * s.board.rows).toNat)
    rwa [List.length_range] at this
  have hd1 : (visit s x y).1.default_tile.revealed = true :=
    (visit_extends s x y).revealed TilePtr.default_tile hd
  have hd2 : (reveal_tile s x y).1.default_tile.revealed = true :=
    (reveal_tile_extends s x y).revealed TilePtr.default_tile hd
  obtain ⟨hv1, hv2⟩ := hidden_count_visit s x y
  rw [hidden_count_eq _ hd1, hidden_count_eq s hd] at hv1 hv2
  refine ⟨?_, hv2, hv1, ?_, hle⟩
  · intro fuel hfuel
    obtain ⟨r, hr, _⟩ := reveal_tile_fuel_terminates fuel s x y
      (by rw [hidden_count_eq s hd]; omega)
    have h1 := reveal_tile_fuel_mono_le fuel (max fuel (reveal_depth s)) (le_max_left _ _)
      s x y r hr
    rw [reveal_tile_fuel_eq s x y _ (le_max_right _ _)] at h1
    rw [hr, h1]
  · obtain ⟨r, hr, hle2⟩ := reveal_tile_fuel_terminates (reveal_depth s) s x y
      (hidden_count_lt_depth s)
    rw [reveal_tile_fuel_eq s x y _ (le_refl _)] at hr
    rw [← Option.some.inj hr, hidden_count_eq _ hd2, hidden_count_eq s hd] at hle2
    exact hle2

/-- C16 at the zero-number tile `(0, 0)` of `three_tile_state`, where the call enters
its neighbour loop. -/
theorem C16_reveal_terminates_witness :
    (three_tile_state.default_tile.revealed = true ∧
      (visit three_tile_state 0 0).2.1 = true) ∧
      ((∀ fuel, (three_tile_state.board.cols * three_tile_state.board.rows).toNat + 1 ≤ fuel →
        reveal_tile_fuel fuel three_tile_state 0 0 = some (reveal_tile three_tile_state 0 0)) ∧
      ((visit three_tile_state 0 0).2.1 = true →
        hidden_tiles (visit three_tile_state 0 0).1 < hidden_tiles three_tile_state) ∧
      hidden_tiles (visit three_tile_state 0 0).1 ≤ hidden_tiles three_tile_state ∧
      hidden_tiles (reveal_tile three_tile_state 0 0).1 ≤ hidden_tiles three_tile_state ∧
      hidden_tiles three_tile_state
        ≤ (three_tile_state.board.cols * three_tile_state.board.rows).toNat) :=
  ⟨⟨by decide, by decide⟩,
    C16_reveal_terminates three_tile_state 0 0 (by decide) (by decide) (by decide)⟩

/-- C17, the code at the failing input: on the 2 x 1 board of `create_board(2, 1, 1)`
with its mine at `(0, 0)`, the key `'e'` (101) reveals the mine and `reveal_tile`
returns `false`; the keys `'d'` (100) and `'f'` (102) that follow still move the cursor
to `(1, 0)` and flag that tile, taking `mines_remaining` from 1 to 0. -/
theorem C17_keys_after_loss :
    ∃ s, create_board default_tile_init 2 1 1 [0] = some s ∧
      (reveal_tile s 0 0).2 = false ∧
      ((main_loop ncurses_keys (initial_session s) [101]).state.board.at 0 0).revealed = true ∧
      (main_loop ncurses_keys (initial_session s) [101]).curs_x = 0 ∧
      ((main_loop ncurses_keys (initial_session s) [101]).state.board.at 1 0).flagged = false ∧
      (main_loop ncurses_keys (initial_session s) [101]).state.board.mines_remaining = 1 ∧
      (main_loop ncurses_keys (initial_session s) [101, 100, 102]).curs_x = 1 ∧
      ((main_loop ncurses_keys (initial_session s) [101, 100, 102]).state.board.at 1 0).flagged
        = true ∧
      (main_loop ncurses_keys (initial_session s) [101, 100, 102]).state.board.mines_remaining
        = 0 :=
  ⟨_, rfl, by decide, by decide, by decide, by decide, by decide, by decide, by decide,
    by decide⟩

/-- C18: on a board with `cols > 0` and `rows > 0`, after any sequence of key events
from the cursor `(0, 0)` the cursor is in the grid, so `board_get` at the cursor is a
tile of the block and not the global `default_tile`; and for a cursor in the grid, a
move at the matching edge leaves the session as it is, and any other move changes the
one coordinate concerned by exactly 1 and nothing else. -/
theorem C18_cursor_in_bounds (k : Curses) (s : State) (keys : List Int)
    (hc : 0 < s.board.cols) (hr : 0 < s.board.rows) :
    (in_bounds (main_loop k (initial_session s) keys).state.board
        (main_loop k (initial_session s) keys).curs_x
        (main_loop k (initial_session s) keys).curs_y ∧
      board_get (main_loop k (initial_session s) keys).state.board
        (main_loop k (initial_session s) keys).curs_x
        (main_loop k (initial_session s) keys).curs_y ≠ TilePtr.default_tile) ∧
    (∀ g : Session, in_bounds g.state.board g.curs_x g.curs_y →
      act g Action.up = some (Session.mk g.state g.curs_x
        (if g.curs_y = 0 then g.curs_y else g.curs_y - 1)) ∧
      act g Action.down = some (Session.mk g.state g.curs_x
        (if g.curs_y = g.state.board.rows - 1 then g.curs_y else g.curs_y + 1)) ∧
      act g Action.left = some (Session.mk g.state
        (if g.curs_x = 0 then g.curs_x else g.curs_x - 1) g.curs_y) ∧
      act g Action.right = some (Session.mk g.state
        (if g.curs_x = g.state.board.cols - 1 then g.curs_x else g.curs_x + 1) g.curs_y)) := by
  have h0 : in_bounds (initial_session s).state.board (initial_session s).curs_x
      (initial_session s).curs_y := ⟨le_refl _, hc, le_refl _, hr⟩
  have hb := main_loop_in_bounds k keys (initial_session s) h0
  refine ⟨⟨hb, fun h => board_get_ne_default _ _ _ hb h.symm⟩, ?_⟩
  intro g hg
  obtain ⟨h1, h2, h3, h4⟩ := hg
  refine ⟨?_, ?_, ?_, ?_⟩
  · simp only [act]
    by_cases h : g.curs_y = 0
    · rw [if_pos h, if_neg (by omega)]
    · rw [if_neg h, if_pos (by omega)]
  · simp only [act]
    by_cases h : g.curs_y = g.state.board.rows - 1
    · rw [if_pos h, if_neg (by omega)]
    · rw [if_neg h, if_pos (by omega)]
  · simp only [act]
    by_cases h : g.curs_x = 0
    · rw [if_pos h, if_neg (by omega)]
    · rw [if_neg h, if_pos (by omega)]
  · simp only [act]
    by_cases h : g.curs_x = g.state.board.cols - 1
    · rw [if_pos h, if_neg (by omega)]
    · rw [if_neg h, if_pos (by omega)]

/-- C18 on `two_tile_state` with the keys right, right, down, `'f'`: the cursor stops
at the last column `(1, 0)`. -/
theorem C18_cursor_in_bounds_witness :
    ((0 : Int) < two_tile_state.board.cols ∧
      (main_loop ncurses_keys (initial_session two_tile_state) [261, 261, 258, 102]).curs_x = 1 ∧
      (main_loop ncurses_keys (initial_session two_tile_state) [261, 261, 258, 102]).curs_y = 0) ∧
    ((in_bounds
        (main_loop ncurses_keys (initial_session two_tile_state) [261, 261, 258, 102]).state.board
        (main_loop ncurses_keys (initial_session two_tile_state) [261, 261, 258, 102]).curs_x
        (main_loop ncurses_keys (initial_session two_tile_state) [261, 261, 258, 102]).curs_y ∧
      board_get
        (main_loop ncurses_keys (initial_session two_tile_state) [261, 261, 258, 102]).state.board
        (main_loop ncurses_keys (initial_session two_tile_state) [261, 261, 258, 102]).curs_x
        (main_loop ncurses_keys (initial_session two_tile_state) [261, 261, 258, 102]).curs_y
          ≠ TilePtr.default_tile) ∧
    (∀ g : Session, in_bounds g.state.board g.curs_x g.curs_y →
      act g Action.up = some (Session.mk g.state g.curs_x
        (if g.curs_y = 0 then g.curs_y else g.curs_y - 1)) ∧
      act g Action.down = some (Session.mk g.state g.curs_x
        (if g.curs_y = g.state.board.rows - 1 then g.curs_y else g.curs_y + 1)) ∧
      act g Action.left = some (Session.mk g.state
        (if g.curs_x = 0 then g.curs_x else g.curs_x - 1) g.curs_y) ∧
      act g Action.right = some (Session.mk g.state
        (if g.curs_x = g.state.board.cols - 1 then g.curs_x else g.curs_x + 1) g.curs_y))) :=
  ⟨⟨by decide, by decide, by decide⟩,
    C18_cursor_in_bounds ncurses_keys two_tile_state [261, 261, 258, 102] (by decide)
      (by decide)⟩

/-- C19: on a state whose safe tiles carry their adjacent-mine count (and whose global
`default_tile` is revealed), revealing at a coordinate whose tile is not a hidden mine (a
safe tile, an already revealed tile, or a coordinate outside the grid) returns `true`,
and the call reveals no mine: every mine tile is revealed after the call exactly if it
was before. -/
theorem C19_safe_reveal_never_loses (s : State) (x y : Int)
    (hd : s.default_tile.revealed = true)
    (hnum : ∀ x1 y1, in_bounds s.board x1 y1 → (s.board.at x1 y1).mine = false →
      (s.board.at x1 y1).number = (adjacent_mines s.board x1 y1 : Int))
    (hsafe : ¬ (in_bounds s.board x y ∧ (s.board.at x y).mine = true ∧
      (s.board.at x y).revealed = false)) :
    (reveal_tile s x y).2 = true ∧
      ∀ x1 y1, in_bounds s.board x1 y1 → (s.board.at x1 y1).mine = true →
        ((reveal_tile s x y).1.board.at x1 y1).revealed = (s.board.at x1 y1).revealed := by
  have hrun := reveal_tile_run s x y
  have hext := run_extends hrun
  have htrue : (reveal_tile s x y).2 = true := by
    apply run_safe hrun hd hnum
    intro c hc hcb
    rw [List.mem_singleton.mp hc] at hcb ⊢
    cases hm : (s.board.at x y).mine
    · exact Or.inl rfl
    · right
      by_contra hr
      exact hsafe ⟨hcb, hm, by simpa using hr⟩
  refine ⟨htrue, ?_⟩
  intro x1 y1 hb hm
  have hno := ((run_result hrun).mp htrue).2
  cases hr : (s.board.at x1 y1).revealed
  · by_contra hne
    apply hno
    refine ⟨board_get s.board x1 y1, ?_, ?_, ?_⟩
    · rw [load_board_get_in_bounds s x1 y1 hb]; exact hm
    · rw [load_board_get_in_bounds s x1 y1 hb]; exact hr
    · rw [load_board_get_at s _ hext.cols x1 y1 hb]; simpa using hne
  · rw [← load_board_get_at s _ hext.cols x1 y1 hb]
    apply hext.revealed
    rw [load_board_get_in_bounds s x1 y1 hb]; exact hr

/-- C19 at the zero-number tile `(0, 0)` of `three_tile_state`: the flood fill stops
short of the mine at `(2, 0)`. -/
theorem C19_safe_reveal_never_loses_witness :
    (three_tile_state.default_tile.revealed = true ∧
      (three_tile_state.board.at 0 0).mine = false) ∧
      ((reveal_tile three_tile_state 0 0).2 = true ∧
        ∀ x1 y1, in_bounds three_tile_state.board x1 y1 →
          (three_tile_state.board.at x1 y1).mine = true →
          ((reveal_tile three_tile_state 0 0).1.board.at x1 y1).revealed
            = (three_tile_state.board.at x1 y1).revealed) :=
  ⟨⟨by decide, by decide⟩,
    C19_safe_reveal_never_loses three_tile_state 0 0 (by decide)
      (by
        intro x1 y1 h1 _
        obtain ⟨a1, a2, a3, a4⟩ := h1
        have a2 : x1 < 3 := a2
        have a4 : y1 < 1 := a4
        interval_cases x1 <;> interval_cases y1 <;> decide)
      (by decide)⟩

/-- C20: in every state reachable from a freshly created board by `reveal_tile` calls
and flag actions at in-bounds positions, every revealed safe tile with number 0 has all
its in-bounds Moore neighbours revealed; so the tiles of one zero region are all
revealed or all hidden. -/
theorem C20_flood_fill_closure (s : State) (h : Reachable s) :
    (∀ x1 y1, in_bounds s.board x1 y1 → (s.board.at x1 y1).revealed = true →
      (s.board.at x1 y1).mine = false → (s.board.at x1 y1).number = 0 →
      ∀ x2 y2, in_bounds s.board x2 y2 → within_one x1 y1 x2 y2 →
        (s.board.at x2 y2).revealed = true) ∧
      (∀ x y x1 y1, ZeroReach s.board x y x1 y1 →
        (s.board.at x1 y1).revealed = (s.board.at x y).revealed) := by
  have hcl := reachable_closed s h
  have hall := reachable_all_numbers s h
  have hsafe := all_numbers_safe _ hall
  refine ⟨hcl, ?_⟩
  intro x y x1 y1 hreach
  cases hm : (s.board.at x y).mine
  · have hm1 := zero_reach_safe s.board hsafe x y hm x1 y1 hreach
    cases hr : (s.board.at x y).revealed
    · by_contra hne
      have hr1 : (s.board.at x1 y1).revealed = true := by simpa using hne
      have := closed_region_revealed s.board hcl hsafe x1 y1 hm1 hr1 x y
        (zero_reach_symm _ _ _ _ _ hreach)
      rw [hr] at this; cases this
    · exact closed_region_revealed s.board hcl hsafe x y hm hr x1 y1 hreach
  · obtain ⟨rfl, rfl⟩ := zero_reach_of_mine s.board hall x y hm x1 y1 hreach
    rfl

/-- C20 on the 3 x 1 board of `create_board(3, 1, 1)` with its mine at `(2, 0)`, after
revealing the zero-number tile `(0, 0)`. -/
theorem C20_flood_fill_closure_witness :
    ∃ s, create_board default_tile_init 3 1 1 [2] = some s ∧
      ((reveal_tile s 0 0).1.board.at 0 0).revealed = true ∧
      ((reveal_tile s 0 0).1.board.at 1 0).revealed = true ∧
      ((∀ x1 y1, in_bounds (reveal_tile s 0 0).1.board x1 y1 →
        ((reveal_tile s 0 0).1.board.at x1 y1).revealed = true →
        ((reveal_tile s 0 0).1.board.at x1 y1).mine = false →
        ((reveal_tile s 0 0).1.board.at x1 y1).number = 0 →
        ∀ x2 y2, in_bounds (reveal_tile s 0 0).1.board x2 y2 → within_one x1 y1 x2 y2 →
          ((reveal_tile s 0 0).1.board.at x2 y2).revealed = true) ∧
      (∀ x y x1 y1, ZeroReach (reveal_tile s 0 0).1.board x y x1 y1 →
        ((reveal_tile s 0 0).1.board.at x1 y1).revealed
          = ((reveal_tile s 0 0).1.board.at x y).revealed)) :=
  ⟨_, rfl, by decide, by decide,
    C20_flood_fill_closure _
      (Reachable.reveal _ 0 0 (Reachable.fresh 3 1 1 [2] _ rfl) (by decide))⟩

end Minesweeper
